import Mathlib

/-!
Verification of the `es_release_compiler` package against its specification.

Text is modelled as `List Char`.  Python's `sorted`/`list.sort` is a stable
ascending sort, which coincides with Mathlib's `List.insertionSort` on the
"less or equal" relation.  Machine integers do not occur (Python integers are
unbounded), so `Nat` is used directly.
-/

/-- Python `\s` whitespace over ASCII, as used by `str.strip()` and `re`. -/
def isSpacePy (c : Char) : Bool :=
  decide (c = ' ') || decide (c = '\t') || decide (c = '\n') || decide (c = '\r') ||
    decide (c = Char.ofNat 11) || decide (c = Char.ofNat 12)

/-- Python `str.lower()` (ASCII fragment relevant to this repository). -/
def pyLower (cs : List Char) : List Char := cs.map Char.toLower

/-- Python `str.strip()`: remove leading and trailing whitespace. -/
def pyStrip (cs : List Char) : List Char :=
  ((cs.dropWhile isSpacePy).reverse.dropWhile isSpacePy).reverse

/-- Numeric value of a decimal digit run, as computed by Python `int(...)`. -/
def digitsToNat (cs : List Char) : Nat :=
  cs.foldl (fun a c => 10 * a + (c.toNat - 48)) 0

/-- Decimal rendering of a natural number, in fuelled form so that the kernel
can evaluate it (the fuel is irrelevant once it exceeds the value). -/
def natToCharsGo : Nat → Nat → List Char → List Char
  | 0, _, acc => acc
  | fuel + 1, n, acc =>
    if n < 10 then Char.ofNat (48 + n) :: acc
    else natToCharsGo fuel (n / 10) (Char.ofNat (48 + n % 10) :: acc)

/-- Decimal rendering of a natural number, as produced by Python f-strings. -/
def natToChars (n : Nat) : List Char := natToCharsGo (n + 1) n []

/-- Boolean test that one list starts with another (used for literal matches). -/
def leadsWith : List Char → List Char → Bool
  | [], _ => true
  | _ :: _, [] => false
  | a :: as, b :: bs => decide (a = b) && leadsWith as bs

/-- Strict lexicographic comparison of `List Nat`, the order Python uses on
tuples of integers (all comparison tuples in `version.py` have length 5). -/
def lexLt : List Nat → List Nat → Bool
  | _, [] => false
  | [], _ :: _ => true
  | a :: as, b :: bs => if a < b then true else if b < a then false else lexLt as bs

/-- Non-strict lexicographic comparison (`x <= y` is `not (y < x)` for Python
tuples). -/
def lexLe (x y : List Nat) : Bool := !(lexLt y x)

/-- Embedding of the `Version` dataclass: `prerelease` is the raw string the
dataclass stores (`None` or e.g. `"alpha1"`). -/
structure Version where
  major : Nat
  minor : Nat
  patch : Nat
  prerelease : Option (List Char)
deriving DecidableEq

/-- Lowercase prerelease tags in the order the regexes list them. -/
def alphaChars : List Char := ['a', 'l', 'p', 'h', 'a']

def betaChars : List Char := ['b', 'e', 't', 'a']

def rcChars : List Char := ['r', 'c']

def tagList : List (List Char) := [alphaChars, betaChars, rcChars]

/-- Alternation `(alpha|beta|rc)(\d+)` matched case-sensitively at the start of
the string, as `re.match` does inside `Version._comparison_tuple`; a prefix
match suffices (trailing characters are ignored) and each alternative needs at
least one digit after the tag.  The three tags start with distinct letters, so
trying them in order is exact. -/
def matchTagNumGo : List (List Char × Nat) → List Char → Option (Nat × Nat)
  | [], _ => none
  | (tag, i) :: more, pre =>
    if leadsWith tag pre then
      let ds := (pre.drop tag.length).takeWhile Char.isDigit
      if ds.isEmpty then matchTagNumGo more pre else some (i, digitsToNat ds)
    else matchTagNumGo more pre

def matchTagNum (pre : List Char) : Option (Nat × Nat) :=
  matchTagNumGo [(alphaChars, 0), (betaChars, 1), (rcChars, 2)] pre

/-- `Version._comparison_tuple`: prereleases sort before the release, which
gets slot value 3; a prerelease string the regex does not recognise also falls
through to `(major, minor, patch, 3, 0)`. -/
def vkey (v : Version) : List Nat :=
  match v.prerelease with
  | some pre =>
    match matchTagNum pre with
    | some (i, n) => [v.major, v.minor, v.patch, i, n]
    | none => [v.major, v.minor, v.patch, 3, 0]
  | none => [v.major, v.minor, v.patch, 3, 0]

/-- `Version.__lt__` (Python tuple comparison is lexicographic). -/
def vlt (a b : Version) : Bool := lexLt (vkey a) (vkey b)

/-- `a <= b` as derived by `functools.total_ordering` from `__lt__`/`__eq__`. -/
def vle (a b : Version) : Bool := lexLe (vkey a) (vkey b)

/-- `Version.__eq__` (comparison-tuple equality, not structural equality). -/
def veq (a b : Version) : Bool := decide (vkey a = vkey b)

/-- `Version.is_prerelease`. -/
def isPrereleaseV (v : Version) : Bool := v.prerelease.isSome

/-- The relation Python's stable ascending sort is taken over. -/
def rvle (a b : Version) : Prop := vle a b = true

instance : DecidableRel rvle := fun _ _ => inferInstanceAs (Decidable (_ = true))

/-- Python's `sorted`/`list.sort` on versions: the unique stable ascending
sort, i.e. insertion sort over `vle`. -/
def pySortVersions (vs : List Version) : List Version := List.insertionSort rvle vs

/-! ## `VersionRange` (`version.py` lines 80-98) -/

/-- Embedding of `VersionRange.__init__`: exclusive start, optional inclusive
end. -/
structure VersionRange where
  start : Version
  stop : Option Version

/-- `VersionRange.contains`: `False` when `version <= self.start`; `False` when
an end is set and `version > self.end`; `True` otherwise.  (`if self.end:` is
an `is-not-None` test, since `Version` objects are always truthy.) -/
def rangeContains (r : VersionRange) (v : Version) : Bool :=
  if vle v r.start then false
  else
    match r.stop with
    | some e => if vlt e v then false else true
    | none => true

/-- `VersionRange.filter_versions`: keep the versions in range, sorted
ascending. -/
def filterVersions (r : VersionRange) (vs : List Version) : List Version :=
  pySortVersions (vs.filter (rangeContains r))

/-! ## `Version.parse` (`version.py` lines 19-38)

The pattern is `^(\d+)\.(\d+)\.(\d+)(?:[-.]?(alpha|beta|rc)(\d+))?$` with
`re.IGNORECASE`, applied to `version_str.strip()`.  Each `\d+` is followed by a
non-digit requirement, so greedy matching without backtracking is exact; no
prerelease tag starts with `-` or `.`, so consuming an optional separator when
present is also exact. -/

/-- Case-insensitive tag match at the start of `cs`: returns the lowercase tag
(the `group(4).lower()` part) and the remaining characters. -/
def matchTagCIGo : List (List Char) → List Char → Option (List Char × List Char)
  | [], _ => none
  | tag :: more, cs =>
    if (cs.take tag.length).map Char.toLower = tag then some (tag, cs.drop tag.length)
    else matchTagCIGo more cs

def matchTagCI (cs : List Char) : Option (List Char × List Char) :=
  matchTagCIGo tagList cs

/-- The optional `(?:[-.]?(alpha|beta|rc)(\d+))?$` tail: `some none` when the
tail is empty, `some (some pre)` on a prerelease match reaching the end of the
string, `none` otherwise. -/
def parsePreTail (cs : List Char) : Option (Option (List Char)) :=
  match cs with
  | [] => some none
  | c :: rest =>
    let body := if decide (c = '-') || decide (c = '.') then rest else cs
    match matchTagCI body with
    | some (tag, after) =>
      let ds := after.takeWhile Char.isDigit
      if ds.isEmpty || !(after.dropWhile Char.isDigit).isEmpty then none
      else some (some (tag ++ ds))
    | none => none

/-- One `(\d+)` group: the maximal digit run (greedy matching is exact since
the character after each run in the pattern can never be a digit); fails when
the run is empty. -/
def splitNum (cs : List Char) : Option (Nat × List Char) :=
  if (cs.takeWhile Char.isDigit).isEmpty then none
  else some (digitsToNat (cs.takeWhile Char.isDigit), cs.dropWhile Char.isDigit)

/-- One literal `\.` of the pattern. -/
def expectDot : List Char → Option (List Char)
  | c :: r => if c = '.' then some r else none
  | [] => none

/-- The anchored regex match on an already-stripped string, building the
`Version` as `Version.parse` does: three dot-separated number groups followed
by the optional prerelease tail reaching `$`. -/
def versionParseCore (cs : List Char) : Option Version :=
  (splitNum cs).bind fun (ma, r1) =>
  (expectDot r1).bind fun r2 =>
  (splitNum r2).bind fun (mi, r3) =>
  (expectDot r3).bind fun r4 =>
  (splitNum r4).bind fun (pa, r5) =>
  (parsePreTail r5).map fun pre => ⟨ma, mi, pa, pre⟩

/-- `Version.parse`: strip, then match; `none` models the `ValueError`. -/
def versionParse (cs : List Char) : Option Version :=
  versionParseCore (pyStrip cs)

/-- `Version.__str__`: `major.minor.patch` plus `-prerelease` when present. -/
def renderVersion (v : Version) : List Char :=
  natToChars v.major ++ '.' :: natToChars v.minor ++ '.' :: natToChars v.patch ++
    (match v.prerelease with
     | none => []
     | some p => '-' :: p)

/-! ## Data models (`es_release_compiler/models.py`) -/

inductive SectionType
  | breaking_changes
  | known_issues
  | deprecations
  | highlights
  | new_features
  | enhancements
  | bug_fixes
  | upgrades
deriving DecidableEq

/-- Embedding of the `ReleaseItem` dataclass. -/
structure ReleaseItem where
  description : List Char
  category : Option (List Char)
  pr_number : Option Nat
  pr_url : Option (List Char)
  issue_number : Option Nat
  issue_url : Option (List Char)
  impact : Option (List Char)
  action : Option (List Char)
deriving DecidableEq

/-- The two key shapes `"pr:<n>"` and `"desc:<text>"` live in disjoint
namespaces, so they are modelled as constructors. -/
inductive DedupKey
  | pr (n : Nat)
  | desc (s : List Char)
deriving DecidableEq

/-- `ReleaseItem.get_dedup_key`: the guard is `if self.pr_number:`, Python
truthiness, so `pr_number == 0` (like `None`) falls through to the
description key `self.description.lower().strip()[:100]`. -/
def dedupKey (it : ReleaseItem) : DedupKey :=
  match it.pr_number with
  | some n => if n ≠ 0 then .pr n else .desc ((pyStrip (pyLower it.description)).take 100)
  | none => .desc ((pyStrip (pyLower it.description)).take 100)

/-- Embedding of the `ReleaseSection` dataclass. -/
structure ReleaseSection where
  section_type : SectionType
  items : List ReleaseItem
deriving DecidableEq

/-- A `ReleaseNote.sections` dict: insertion-ordered association list with
unique keys, exactly Python's `dict` behaviour. -/
def alookup (k : SectionType) : List (SectionType × ReleaseSection) → Option ReleaseSection
  | [] => none
  | (k', s) :: rest => if k' = k then some s else alookup k rest

/-- `d[k] = s` on an insertion-ordered dict: replace in place when the key
exists, append otherwise. -/
def dictInsert (m : List (SectionType × ReleaseSection)) (k : SectionType)
    (s : ReleaseSection) : List (SectionType × ReleaseSection) :=
  if (alookup k m).isSome then m.map (fun p => if p.1 = k then (k, s) else p)
  else m ++ [(k, s)]

/-- Embedding of the `ReleaseNote` dataclass. -/
structure ReleaseNote where
  version : Version
  product : List Char
  sections : List (SectionType × ReleaseSection)
  release_date : Option (List Char)
  source_url : Option (List Char)
deriving DecidableEq

/-- `ReleaseNote.get_section`. -/
def getSectionN (r : ReleaseNote) (t : SectionType) : Option ReleaseSection :=
  alookup t r.sections

/-- The items a release contributes for a section type: `get_section` then
`.items`; a missing section (`None`, falsy) contributes nothing, a present but
empty section is truthy and iterates zero items. -/
def sectionItems (r : ReleaseNote) (t : SectionType) : List ReleaseItem :=
  match getSectionN r t with
  | none => []
  | some s => s.items

/-- Embedding of the `ConsolidatedItem` dataclass. -/
structure ConsolidatedItem where
  description : List Char
  versions : List Version
  category : Option (List Char)
  pr_number : Option Nat
  pr_url : Option (List Char)
  issue_number : Option Nat
  issue_url : Option (List Char)
  impact : Option (List Char)
  action : Option (List Char)
deriving DecidableEq

/-- `ConsolidatedItem.from_release_item`. -/
def fromReleaseItem (it : ReleaseItem) (v : Version) : ConsolidatedItem :=
  ⟨it.description, [v], it.category, it.pr_number, it.pr_url, it.issue_number,
    it.issue_url, it.impact, it.action⟩

/-- `ConsolidatedItem.add_version`: Python `in` uses `Version.__eq__`
(comparison-tuple equality); `append` then in-place stable `sort`. -/
def addVersion (c : ConsolidatedItem) (v : Version) : ConsolidatedItem :=
  if c.versions.any (fun w => veq w v) then c
  else { c with versions := pySortVersions (c.versions ++ [v]) }

/-- Embedding of the `CompiledReleaseNotes` dataclass. -/
structure CompiledReleaseNotes where
  product : List Char
  start_version : Version
  end_version : Version
  releases : List ReleaseNote

/-- The `items_by_key` dict of `get_consolidated_section`, insertion ordered. -/
def cmapLookup (k : DedupKey) : List (DedupKey × ConsolidatedItem) → Option ConsolidatedItem
  | [] => none
  | (k', c) :: rest => if k' = k then some c else cmapLookup k rest

/-- One loop iteration of `get_consolidated_section`: add this version to the
existing consolidated item, or create a new one. -/
def consStep (v : Version) (m : List (DedupKey × ConsolidatedItem)) (it : ReleaseItem) :
    List (DedupKey × ConsolidatedItem) :=
  let k := dedupKey it
  match cmapLookup k m with
  | some _ => m.map (fun p => if p.1 = k then (p.1, addVersion p.2 v) else p)
  | none => m ++ [(k, fromReleaseItem it v)]

/-- Processing one release of the outer loop of `get_consolidated_section`. -/
def consRelease (t : SectionType) (m : List (DedupKey × ConsolidatedItem)) (r : ReleaseNote) :
    List (DedupKey × ConsolidatedItem) :=
  (sectionItems r t).foldl (consStep r.version) m

/-- Sort key of the final `result.sort(key=lambda x: x.versions[0])`. -/
def headVersionKey (c : ConsolidatedItem) : List Nat :=
  match c.versions with
  | [] => []
  | v :: _ => vkey v

def rconsLe (a b : ConsolidatedItem) : Prop :=
  lexLe (headVersionKey a) (headVersionKey b) = true

instance : DecidableRel rconsLe := fun _ _ => inferInstanceAs (Decidable (_ = true))

/-- `CompiledReleaseNotes.get_consolidated_section`: fold the releases in
order through the keyed dict, take the values in insertion order, then stably
sort by earliest version. -/
def getConsolidatedSection (cr : CompiledReleaseNotes) (t : SectionType) :
    List ConsolidatedItem :=
  let m := cr.releases.foldl (consRelease t) []
  List.insertionSort rconsLe (m.map Prod.snd)

/-! ## Legacy HTML parser (`es_release_compiler/parsers/legacy.py`)

The parser walks `content.find_all(['h2', 'h3', 'h4', 'ul', 'dl'])` in document
order; a document is therefore embedded as the list of those elements.  A list
item carries its `get_text()` and the `href` values of its `<a href>`
descendants in order (`_parse_list_item` reads only the hrefs; the
`link_text` local is never used). -/

structure ListItemTag where
  text : List Char
  links : List (List Char)
deriving DecidableEq

inductive DlChild
  | dt (text : List Char)
  | dd (item : ListItemTag)
deriving DecidableEq

inductive HtmlElem
  | h2 (text : List Char)
  | h3 (text : List Char)
  | h4 (text : List Char)
  | ul (items : List ListItemTag)
  | dl (children : List DlChild)
deriving DecidableEq

/-- `LegacyParser.SECTION_MAPPINGS` in declaration (= dict iteration) order. -/
def sectionMappings : List (List Char × SectionType) :=
  [("known issues".toList, .known_issues),
   ("breaking changes".toList, .breaking_changes),
   ("deprecations".toList, .deprecations),
   ("deprecation".toList, .deprecations),
   ("highlights".toList, .highlights),
   ("new features".toList, .new_features),
   ("enhancements".toList, .enhancements),
   ("enhancement".toList, .enhancements),
   ("bug fixes".toList, .bug_fixes),
   ("fixes".toList, .bug_fixes),
   ("upgrades".toList, .upgrades)]

/-- Python's `pattern in header_text` substring test. -/
def containsSub (needle : List Char) : List Char → Bool
  | [] => needle.isEmpty
  | h :: t => leadsWith needle (h :: t) || containsSub needle t

/-- First mapping entry whose pattern occurs in the header text. -/
def findSectionMapping (header : List Char) : Option SectionType :=
  (sectionMappings.find? (fun p => containsSub p.1 header)).map Prod.snd

/-- Attempt of `github\.com/[^/]+/[^/]+/pull/(\d+)` anchored at the current
position: each `[^/]+` is a maximal nonempty run of non-slash characters
(greedy matching is exact because `[^/]` cannot match the following `/`). -/
def prUrlAt (cs : List Char) : Option Nat :=
  if leadsWith "github.com/".toList cs then
    let r1 := cs.drop 11
    let s1 := r1.takeWhile (fun c => decide (c ≠ '/'))
    if s1.isEmpty then none
    else
      match r1.dropWhile (fun c => decide (c ≠ '/')) with
      | '/' :: r3 =>
        let s2 := r3.takeWhile (fun c => decide (c ≠ '/'))
        if s2.isEmpty then none
        else
          match r3.dropWhile (fun c => decide (c ≠ '/')) with
          | '/' :: r5 =>
            if leadsWith "pull/".toList r5 then
              let ds := (r5.drop 5).takeWhile Char.isDigit
              if ds.isEmpty then none else some (digitsToNat ds)
            else none
          | _ => none
      | _ => none
  else none

/-- Attempt of `github\.com/[^/]+/[^/]+/issues/(\d+)` anchored at the current
position. -/
def issueUrlAt (cs : List Char) : Option Nat :=
  if leadsWith "github.com/".toList cs then
    let r1 := cs.drop 11
    let s1 := r1.takeWhile (fun c => decide (c ≠ '/'))
    if s1.isEmpty then none
    else
      match r1.dropWhile (fun c => decide (c ≠ '/')) with
      | '/' :: r3 =>
        let s2 := r3.takeWhile (fun c => decide (c ≠ '/'))
        if s2.isEmpty then none
        else
          match r3.dropWhile (fun c => decide (c ≠ '/')) with
          | '/' :: r5 =>
            if leadsWith "issues/".toList r5 then
              let ds := (r5.drop 7).takeWhile Char.isDigit
              if ds.isEmpty then none else some (digitsToNat ds)
            else none
          | _ => none
      | _ => none
  else none

/-- `re.search`: try the pattern at each position, leftmost match wins. -/
def searchAt (f : List Char → Option Nat) : List Char → Option Nat
  | [] => none
  | c :: rest =>
    match f (c :: rest) with
    | some n => some n
    | none => searchAt f rest

def searchPrUrl (href : List Char) : Option Nat := searchAt prUrlAt href

def searchIssueUrl (href : List Char) : Option Nat := searchAt issueUrlAt href

/-- `PR_SIMPLE_PATTERN.search`: leftmost `#` followed by at least one digit;
the digit run is greedy. -/
def searchPrToken : List Char → Option Nat
  | [] => none
  | c :: rest =>
    if decide (c = '#') && !(rest.takeWhile Char.isDigit).isEmpty then
      some (digitsToNat (rest.takeWhile Char.isDigit))
    else searchPrToken rest

/-- State machine for `PR_SIMPLE_PATTERN.sub('', text)`: the flag is true
while the digit run of a matched `#\d+` token is being deleted.  A `#` starts
a deletion exactly when the next character is a digit (equivalently, when
`\d+` can match), and the greedy run ends at the first non-digit. -/
def subPrGo : List Char → Bool → List Char
  | [], _ => []
  | c :: rest, skipping =>
    if skipping && c.isDigit then subPrGo rest true
    else if decide (c = '#') && (match rest with | d :: _ => d.isDigit | [] => false) then
      subPrGo rest true
    else c :: subPrGo rest false

/-- `PR_SIMPLE_PATTERN.sub('', text)`: delete every non-overlapping leftmost
`#\d+` token. -/
def subPrTokens (cs : List Char) : List Char := subPrGo cs false

/-- State machine for `re.sub(r'\s+', ' ', s)`: the flag is true while inside
a whitespace run whose single replacement space has already been emitted. -/
def collapseGo : List Char → Bool → List Char
  | [], _ => []
  | c :: rest, inRun =>
    if isSpacePy c then
      if inRun then collapseGo rest true else ' ' :: collapseGo rest true
    else c :: collapseGo rest false

/-- `re.sub(r'\s+', ' ', s)`: replace every maximal whitespace run by one
space. -/
def collapseWs (cs : List Char) : List Char := collapseGo cs false

/-- The hard-coded fallback pull-request URL of `_parse_list_item`. -/
def fallbackPrUrl (n : Nat) : List Char :=
  "https://github.com/elastic/elasticsearch/pull/".toList ++ natToChars n

/-- `LegacyParser._parse_list_item`.  The link loop overwrites earlier
PR/issue fields, so the last matching link wins; `if not pr_number:` is a
truthiness test, and when the `#N` fallback finds nothing the fields keep
their previous values. -/
def parseListItem (li : ListItemTag) (category : Option (List Char)) : ReleaseItem :=
  let text := pyStrip li.text
  let st := li.links.foldl
    (fun (st : (Option Nat × Option (List Char)) × (Option Nat × Option (List Char))) href =>
      match searchPrUrl href with
      | some n => ((some n, some href), st.2)
      | none =>
        match searchIssueUrl href with
        | some n => (st.1, (some n, some href))
        | none => st)
    ((none, none), (none, none))
  let prPart :=
    match st.1.1 with
    | some n => if n ≠ 0 then st.1 else fallbackPr st.1 text
    | none => fallbackPr st.1 text
  let description := pyStrip (collapseWs (subPrTokens text))
  ⟨description, category, prPart.1, prPart.2, st.2.1, st.2.2, none, none⟩
where
  fallbackPr (old : Option Nat × Option (List Char)) (text : List Char) :
      Option Nat × Option (List Char) :=
    match searchPrToken text with
    | some n => (some n, some (fallbackPrUrl n))
    | none => old

/-- State of the `parse_release_notes` element loop. -/
structure LegacyParseState where
  sections : List (SectionType × ReleaseSection)
  currentType : Option SectionType
  currentCategory : Option (List Char)

/-- One iteration of the `parse_release_notes` element loop. -/
def processElem (st : LegacyParseState) (e : HtmlElem) : LegacyParseState :=
  match e with
  | .h2 text | .h3 text =>
    let header := pyStrip (pyLower text)
    match findSectionMapping header with
    | some mt =>
      let secs :=
        if (alookup mt st.sections).isSome then st.sections
        else st.sections ++ [(mt, ⟨mt, []⟩)]
      ⟨secs, some mt, none⟩
    | none =>
      match st.currentType with
      | some _ => { st with currentCategory := some (pyStrip text) }
      | none => st
  | .h4 text =>
    match st.currentType with
    | some _ => { st with currentCategory := some (pyStrip text) }
    | none => st
  | .ul lis =>
    match st.currentType with
    | some t =>
      match alookup t st.sections with
      | some sec =>
        let newSec :=
          { sec with items := sec.items ++ lis.map (fun li => parseListItem li st.currentCategory) }
        { st with sections := dictInsert st.sections t newSec }
      | none => st
    | none => st
  | .dl children =>
    match st.currentType with
    | some t =>
      match alookup t st.sections with
      | some sec =>
        let acc := children.foldl
          (fun (acc : List ReleaseItem × Option (List Char)) ch =>
            match ch with
            | .dt txt => (acc.1, some (pyStrip txt))
            | .dd li =>
              let item := parseListItem li acc.2
              if item.description.isEmpty then acc else (acc.1 ++ [item], acc.2))
          ([], st.currentCategory)
        { st with sections := dictInsert st.sections t { sec with items := sec.items ++ acc.1 } }
      | none => st
    | none => st

/-- `LegacyParser.parse_release_notes` over the content element stream. -/
def legacyParseReleaseNotes (elems : List HtmlElem) (version : Version) (product : List Char) :
    ReleaseNote :=
  let st := elems.foldl processElem ⟨[], none, none⟩
  ⟨version, product, st.sections, none, none⟩

/-! ## Enrichment merge (`es_release_compiler/compiler.py` lines 166-177) -/

/-- The inner merge loop: `existing_descs` is the snapshot of descriptions
taken before any append, and membership is exact string equality. -/
def mergeGo (descs : List (List Char)) (acc : List ReleaseItem) :
    List ReleaseItem → List ReleaseItem
  | [] => acc
  | it :: rest =>
    if it.description ∈ descs then mergeGo descs acc rest
    else mergeGo descs (acc ++ [it]) rest

/-- Merging fetched breaking-change items into the already-present section. -/
def mergeBreakingItems (existing incoming : List ReleaseItem) : List ReleaseItem :=
  mergeGo (existing.map (fun it => it.description)) existing incoming

/-- The breaking-changes enrichment step of `_fetch_complete_release`:
`if breaking and not breaking.is_empty():` then either install the fetched
section under the key or merge its items into the present section. -/
def enrichBreaking (release : ReleaseNote) (breaking : Option ReleaseSection) : ReleaseNote :=
  match breaking with
  | none => release
  | some b =>
    if b.items.isEmpty then release
    else
      match alookup SectionType.breaking_changes release.sections with
      | none =>
        { release with sections := dictInsert release.sections .breaking_changes b }
      | some ex =>
        { release with
            sections := dictInsert release.sections .breaking_changes
              { ex with items := mergeBreakingItems ex.items b.items } }

/-! ## Fetch retry (`es_release_compiler/fetchers/base.py` lines 28-48)

`fetch_page` is wrapped in `tenacity.retry` with `stop_after_attempt(3)` (at
most three calls in total) and `retry_if_exception_type((httpx.ConnectError,
httpx.ReadTimeout))` (only those two exception types are retried; any other
exception propagates at once).  Exhausting the attempts surfaces an error to
the caller.  The wall-clock backoff (`wait_exponential`) is timing, not
functional behaviour, and is not modelled.  A run of the network is a script
of per-attempt outcomes; `raise_for_status` raises for any status of 400 and
above, and the 404 branch returns `None` instead. -/

inductive HttpOutcome
  | resp (status : Nat) (body : List Char)
  | connectError
  | readTimeout
  | otherExc
deriving DecidableEq

inductive FetchErr
  | httpStatus (code : Nat)
  | transportFailure
  | otherFailure
deriving DecidableEq

inductive FetchResult
  | ok (body : Option (List Char))
  | raised (e : FetchErr)
deriving DecidableEq

/-- The retry loop: result together with the number of attempts consumed. -/
def fetchPageGo : Nat → List HttpOutcome → FetchResult × Nat
  | _, [] => (.raised .otherFailure, 0)
  | attemptsLeft, o :: rest =>
    match o with
    | .resp s b =>
      if s = 404 then (.ok none, 1)
      else if 400 ≤ s then (.raised (.httpStatus s), 1)
      else (.ok (some b), 1)
    | .otherExc => (.raised .otherFailure, 1)
    | .connectError | .readTimeout =>
      if attemptsLeft ≤ 1 then (.raised .transportFailure, 1)
      else
        let r := fetchPageGo (attemptsLeft - 1) rest
        (r.1, r.2 + 1)

/-- `BaseFetcher.fetch_page` under a given outcome script. -/
def fetchPage (script : List HttpOutcome) : FetchResult × Nat :=
  fetchPageGo 3 script

/-! ## Compile orchestration (`es_release_compiler/compiler.py` lines 93-154)

`compile_product` is modelled as a function of the already-parsed start/end
versions, the discovered version list, and the per-version fetch-and-enrich
result (`None` when the version yields no release or its fetch failed).  The
thread pool collects results in completion order and then sorts by version;
only the sorted list is observable here. -/

def targetVersions (start : Version) (stop : Option Version) (includePre : Bool)
    (allVs : List Version) : List Version :=
  let t := filterVersions ⟨start, stop⟩ allVs
  if includePre then t else t.filter (fun v => !isPrereleaseV v)

def rnoteLe (a b : ReleaseNote) : Prop := vle a.version b.version = true

instance : DecidableRel rnoteLe := fun _ _ => inferInstanceAs (Decidable (_ = true))

/-- `ReleaseCompiler.compile_product`: early return when discovery finds
nothing, else filter, fetch, sort, and pick
`target_versions[-1] if target_versions else start`, overridden by an
explicit end. -/
def compileProduct (product : List Char) (start : Version) (stop : Option Version)
    (includePre : Bool) (allVs : List Version) (fetch : Version → Option ReleaseNote) :
    CompiledReleaseNotes :=
  if allVs.isEmpty then ⟨product, start, stop.getD start, []⟩
  else
    let targets := targetVersions start stop includePre allVs
    let releases := List.insertionSort rnoteLe (targets.filterMap fetch)
    let actualEnd :=
      match stop with
      | some e => e
      | none => (targets.getLast?).getD start
    ⟨product, start, actualEnd, releases⟩

/-! ## Supporting lemmas -/

/-- Concrete data for the C2 counterexample: the fetched item differs from the
present one only in letter case. -/
def c2ExistingItem : ReleaseItem :=
  ⟨"Removed the X API".toList, none, none, none, none, none, none, none⟩

def c2IncomingItem : ReleaseItem :=
  ⟨"REMOVED THE X API".toList, none, none, none, none, none, none, none⟩

def c2Note : ReleaseNote :=
  ⟨⟨8, 0, 0, none⟩, "elasticsearch".toList,
    [(.breaking_changes, ⟨.breaking_changes, [c2ExistingItem]⟩)], none, none⟩

/-- Rank a canonical tag the way `pre_order` does (`alpha` 0, `beta` 1,
`rc` 2). -/
def tagRank (tag : List Char) : Nat :=
  if tag = alphaChars then 0 else if tag = betaChars then 1 else 2

def rkeyLe (x y : List Nat) : Prop := lexLe x y = true

instance : DecidableRel rkeyLe := fun _ _ => inferInstanceAs (Decidable (_ = true))

/-- The scenario-A page fragment: a "Bug fixes" heading followed by a `<ul>`
with the single hyperlink-free item `"Fixed crash (#1234)"`. -/
def c1Doc : List HtmlElem :=
  [.h2 "Bug fixes".toList, .ul [⟨"Fixed crash (#1234)".toList, []⟩]]

/-- All `(item, release.version)` occurrences the loops visit, in order. -/
def occList (t : SectionType) (rs : List ReleaseNote) : List (ReleaseItem × Version) :=
  rs.bind (fun r => (sectionItems r t).map (fun it => (it, r.version)))

/-- The dict fold over an occurrence stream. -/
def consFoldFrom (m : List (DedupKey × ConsolidatedItem)) (occ : List (ReleaseItem × Version)) :
    List (DedupKey × ConsolidatedItem) :=
  occ.foldl (fun m p => consStep p.2 m p.1) m

/-- The consolidated item a key group produces: the first occurrence creates
it, every later occurrence only calls `add_version`. -/
def buildEntry (it : ReleaseItem) (v : Version) (vs : List Version) : ConsolidatedItem :=
  vs.foldl addVersion (fromReleaseItem it v)

/-- Invariant of a `ConsolidatedItem.versions` list: sorted ascending and no
two members with equal comparison tuples. -/
def versOK (l : List Version) : Prop :=
  List.Sorted rvle l ∧ List.Pairwise (fun a b => vkey a ≠ vkey b) l

/-- Two releases for the C5 counterexample, both carrying an item with
`pr_number = 0` but different descriptions. -/
def c5RelA : ReleaseNote :=
  ⟨⟨1, 0, 0, none⟩, [], [(.bug_fixes, ⟨.bug_fixes,
    [⟨"first entry".toList, none, some 0, none, none, none, none, none⟩]⟩)], none, none⟩

def c5RelB : ReleaseNote :=
  ⟨⟨1, 0, 1, none⟩, [], [(.bug_fixes, ⟨.bug_fixes,
    [⟨"second entry".toList, none, some 0, none, none, none, none, none⟩]⟩)], none, none⟩

def c5Compiled : CompiledReleaseNotes :=
  ⟨[], ⟨0, 9, 0, none⟩, ⟨1, 0, 1, none⟩, [c5RelA, c5RelB]⟩

/-- Two releases sharing pull-request 555 for the C5 witness (spec scenario
B). -/
def c5WRelA : ReleaseNote :=
  ⟨⟨8, 17, 0, none⟩, [], [(.bug_fixes, ⟨.bug_fixes,
    [⟨"fix flux".toList, some "Search".toList, some 555, some "u1".toList,
      none, none, none, none⟩]⟩)], none, none⟩

def c5WRelB : ReleaseNote :=
  ⟨⟨8, 17, 1, none⟩, [], [(.bug_fixes, ⟨.bug_fixes,
    [⟨"other words".toList, some "Other".toList, some 555, some "u2".toList,
      some 3, some "u3".toList, none, none⟩]⟩)], none, none⟩

def c5WComp : CompiledReleaseNotes :=
  ⟨[], ⟨8, 16, 0, none⟩, ⟨8, 17, 1, none⟩, [c5WRelA, c5WRelB]⟩

/-- The first `(item, version)` occurrence carrying deduplication key `k`,
scanning releases in list order and each release's section items in order:
this is the spec-side description of which item a consolidated record is
built from. -/
def firstWithKey (t : SectionType) (rs : List ReleaseNote) (k : DedupKey) :
    Option (ReleaseItem × Version) :=
  ((occList t rs).filter (fun p => decide (dedupKey p.1 = k))).head?

/-- A nonempty run of ASCII digits: one `(\d+)` group of the spec's grammar. -/
def IsDigitRun (cs : List Char) : Prop := cs ≠ [] ∧ ∀ c ∈ cs, c.isDigit = true

/-- A case-insensitive spelling of one of the prerelease tag words
`alpha`, `beta`, `rc`. -/
def IsTagWordCI (cs : List Char) : Prop := cs.map Char.toLower ∈ tagList

/-- The separator alternatives before the prerelease tag: `-` or `.` as the
spec's grammar text says, plus the empty separator when `sepOptional` holds
(the regex makes the separator optional via `[-.]?`). -/
def sepChoices (sepOptional : Bool) : List (List Char) :=
  if sepOptional then [[], ['-'], ['.']] else [['-'], ['.']]

/-- The spec's version grammar `major.minor.patch[-(alpha|beta|rc)N]` read as a
set of character strings, with `sepOptional` selecting whether the separator
before the prerelease tag may be absent. -/
def SpecGrammar (sepOptional : Bool) (cs : List Char) : Prop :=
  ∃ a b c rest, cs = a ++ '.' :: (b ++ '.' :: (c ++ rest)) ∧
    IsDigitRun a ∧ IsDigitRun b ∧ IsDigitRun c ∧
    (rest = [] ∨ ∃ sep t n, sep ∈ sepChoices sepOptional ∧ IsTagWordCI t ∧
      IsDigitRun n ∧ rest = sep ++ (t ++ n))

/-- The concrete string `1.2.3alpha1` of the counterexample. -/
def cexChars : List Char := ['1', '.', '2', '.', '3', 'a', 'l', 'p', 'h', 'a', '1']

theorem lexLt_irrefl (x : List Nat) : lexLt x x = false := by
  induction x with
  | nil => rfl
  | cons a as ih => simp [lexLt, ih]

theorem lexLt_trans {x y z : List Nat} (h₁ : lexLt x y = true) (h₂ : lexLt y z = true) :
    lexLt x z = true := by
  induction x generalizing y z with
  | nil =>
    cases y with
    | nil => simp [lexLt] at h₁
    | cons b bs =>
      cases z with
      | nil => simp [lexLt] at h₂
      | cons c cs => simp [lexLt]
  | cons a as ih =>
    cases y with
    | nil => simp [lexLt] at h₁
    | cons b bs =>
      cases z with
      | nil => simp [lexLt] at h₂
      | cons c cs =>
        simp only [lexLt] at h₁ h₂ ⊢
        by_cases hab : a < b <;> by_cases hbc : b < c <;>
          simp [hab, hbc] at h₁ h₂ <;>
          first
            | (simp [show a < c by omega])
            | (obtain ⟨hba, h₁⟩ := h₁
               obtain ⟨hcb, h₂⟩ := h₂
               simp [show ¬ a < c by omega, show ¬ c < a by omega]
               exact ih h₁ h₂)

theorem lexLt_trichotomy (x y : List Nat) :
    lexLt x y = true ∨ x = y ∨ lexLt y x = true := by
  induction x generalizing y with
  | nil => cases y <;> simp [lexLt]
  | cons a as ih =>
    cases y with
    | nil => simp [lexLt]
    | cons b bs =>
      rcases Nat.lt_trichotomy a b with h | h | h
      · exact Or.inl (by simp [lexLt, h])
      · subst h
        rcases ih bs with h' | h' | h'
        · exact Or.inl (by simp [lexLt, h'])
        · exact Or.inr (Or.inl (by rw [h']))
        · exact Or.inr (Or.inr (by simp [lexLt, h']))
      · exact Or.inr (Or.inr (by simp [lexLt, h]))

theorem lexLt_asymm {x y : List Nat} (h : lexLt x y = true) : lexLt y x = false := by
  by_contra hc
  have h' : lexLt y x = true := by
    cases hyx : lexLt y x
    · exact absurd hyx hc
    · rfl
  have := lexLt_trans h h'
  rw [lexLt_irrefl] at this
  exact Bool.noConfusion this

theorem lexLe_refl (x : List Nat) : lexLe x x = true := by
  simp [lexLe, lexLt_irrefl]

theorem lexLe_total (x y : List Nat) : lexLe x y = true ∨ lexLe y x = true := by
  rcases lexLt_trichotomy x y with h | h | h
  · exact Or.inl (by simp [lexLe, lexLt_asymm h])
  · exact Or.inl (by simp [h, lexLe, lexLt_irrefl])
  · exact Or.inr (by simp [lexLe, lexLt_asymm h])

theorem lexLe_trans {x y z : List Nat} (h₁ : lexLe x y = true) (h₂ : lexLe y z = true) :
    lexLe x z = true := by
  simp only [lexLe, Bool.not_eq_true'] at h₁ h₂ ⊢
  by_contra hc
  have hzx : lexLt z x = true := by
    cases h : lexLt z x
    · exact absurd h hc
    · rfl
  rcases lexLt_trichotomy x y with h | h | h
  · have := lexLt_trans hzx h
    rw [h₂] at this; exact Bool.noConfusion this
  · subst h
    rw [hzx] at h₂; exact Bool.noConfusion h₂
  · rw [h] at h₁; exact Bool.noConfusion h₁

theorem lexLe_antisymm {x y : List Nat} (h₁ : lexLe x y = true) (h₂ : lexLe y x = true) :
    x = y := by
  simp only [lexLe, Bool.not_eq_true'] at h₁ h₂
  rcases lexLt_trichotomy x y with h | h | h
  · rw [h] at h₂; exact Bool.noConfusion h₂
  · exact h
  · rw [h] at h₁; exact Bool.noConfusion h₁

theorem lexLt_iff_le_not_le {x y : List Nat} :
    lexLt x y = true ↔ (lexLe x y = true ∧ ¬ lexLe y x = true) := by
  constructor
  · intro h
    refine ⟨by simp [lexLe, lexLt_asymm h], ?_⟩
    simp [lexLe, h]
  · rintro ⟨h₁, h₂⟩
    simp only [lexLe, Bool.not_eq_true', Bool.not_eq_false] at h₁ h₂
    exact h₂

theorem lexLe_of_lt {x y : List Nat} (h : lexLt x y = true) : lexLe x y = true := by
  simp [lexLe, lexLt_asymm h]

theorem lexLt_of_le_of_ne {x y : List Nat} (h : lexLe x y = true) (hne : x ≠ y) :
    lexLt x y = true := by
  rcases lexLt_trichotomy x y with h' | h' | h'
  · exact h'
  · exact absurd h' hne
  · simp [lexLe, h'] at h

/-! ## Version model (`es_release_compiler/version.py`) -/

instance : IsTotal Version rvle :=
  ⟨fun a b => lexLe_total (vkey a) (vkey b)⟩

instance : IsTrans Version rvle :=
  ⟨fun _ _ _ h₁ h₂ => lexLe_trans h₁ h₂⟩

instance : IsTotal ConsolidatedItem rconsLe :=
  ⟨fun a b => lexLe_total (headVersionKey a) (headVersionKey b)⟩

instance : IsTrans ConsolidatedItem rconsLe :=
  ⟨fun _ _ _ h₁ h₂ => lexLe_trans h₁ h₂⟩

instance : IsTotal ReleaseNote rnoteLe :=
  ⟨fun a b => lexLe_total (vkey a.version) (vkey b.version)⟩

instance : IsTrans ReleaseNote rnoteLe :=
  ⟨fun _ _ _ h₁ h₂ => lexLe_trans h₁ h₂⟩

theorem fetchPageGo_spec (script : List HttpOutcome) : ∀ n, 1 ≤ n →
    (fetchPageGo n script).2 ≤ n ∧
    (∀ o ∈ script.take ((fetchPageGo n script).2 - 1),
        o = HttpOutcome.connectError ∨ o = HttpOutcome.readTimeout) := by
  induction script with
  | nil => intro n hn; simp [fetchPageGo]
  | cons o rest ih =>
    intro n hn
    cases o with
    | resp s b =>
      refine ⟨?_, ?_⟩ <;> simp only [fetchPageGo] <;> split_ifs <;> simp <;> omega
    | otherExc =>
      refine ⟨?_, ?_⟩ <;> simp [fetchPageGo]
      omega
    | connectError =>
      by_cases hle : n ≤ 1
      · simp [fetchPageGo, hle]; omega
      · obtain ⟨ihb, ihm⟩ := ih (n - 1) (by omega)
        simp only [fetchPageGo, if_neg hle]
        refine ⟨by omega, ?_⟩
        intro x hx
        rcases hr : (fetchPageGo (n - 1) rest).2 with _ | k
        · rw [hr] at hx; simp at hx
        · rw [hr] at ihm hx
          simp only [Nat.add_sub_cancel, List.take_succ_cons, List.mem_cons] at hx
          rcases hx with rfl | hx
          · exact Or.inl rfl
          · exact ihm x (by simpa using hx)
    | readTimeout =>
      by_cases hle : n ≤ 1
      · simp [fetchPageGo, hle]; omega
      · obtain ⟨ihb, ihm⟩ := ih (n - 1) (by omega)
        simp only [fetchPageGo, if_neg hle]
        refine ⟨by omega, ?_⟩
        intro x hx
        rcases hr : (fetchPageGo (n - 1) rest).2 with _ | k
        · rw [hr] at hx; simp at hx
        · rw [hr] at ihm hx
          simp only [Nat.add_sub_cancel, List.take_succ_cons, List.mem_cons] at hx
          rcases hx with rfl | hx
          · exact Or.inr rfl
          · exact ihm x (by simpa using hx)

/-- C9: `fetch_page` returns absent (`None`) for a 404 response rather than
raising; any other HTTP status error propagates to the caller without retry;
only connection and read-timeout failures are retried, with at most 3 attempts
in total, so a fetch that raises a transport error on the first two attempts
and succeeds on the third returns the successful result with no error
surfaced to the caller. -/
theorem fetchPage_retry_contract :
    (∀ (b : List Char) (rest : List HttpOutcome),
        fetchPage (.resp 404 b :: rest) = (.ok none, 1)) ∧
    (∀ (s : Nat) (b : List Char) (rest : List HttpOutcome), 400 ≤ s → s ≠ 404 →
        fetchPage (.resp s b :: rest) = (.raised (.httpStatus s), 1)) ∧
    (∀ script : List HttpOutcome,
        (fetchPage script).2 ≤ 3 ∧
        ∀ o ∈ script.take ((fetchPage script).2 - 1),
          o = HttpOutcome.connectError ∨ o = HttpOutcome.readTimeout) ∧
    (∀ (e₁ e₂ : HttpOutcome),
        (e₁ = .connectError ∨ e₁ = .readTimeout) →
        (e₂ = .connectError ∨ e₂ = .readTimeout) →
        ∀ (s : Nat) (b : List Char) (rest : List HttpOutcome), s < 400 →
          fetchPage (e₁ :: e₂ :: .resp s b :: rest) = (.ok (some b), 3)) := by
  refine ⟨?_, ?_, ?_, ?_⟩
  · intro b rest; simp [fetchPage, fetchPageGo]
  · intro s b rest h400 h404
    simp [fetchPage, fetchPageGo, h404, h400]
  · intro script; exact fetchPageGo_spec script 3 (by omega)
  · rintro e₁ e₂ (rfl | rfl) (rfl | rfl) s b rest hs <;>
      simp [fetchPage, fetchPageGo, show s ≠ 404 by omega, show ¬ 400 ≤ s by omega]

/-- Witness for C9 at concrete inputs: a 500 response raises at once with one
attempt, and two transport failures followed by a 200 succeed in three
attempts. -/
theorem fetchPage_retry_contract_witness :
    fetchPage [.resp 500 []] = (.raised (.httpStatus 500), 1) ∧
    fetchPage [.connectError, .readTimeout, .resp 200 "ok".toList] =
      (.ok (some "ok".toList), 3) := by
  constructor
  · exact fetchPage_retry_contract.2.1 500 [] [] (by omega) (by omega)
  · exact fetchPage_retry_contract.2.2.2 .connectError .readTimeout (Or.inl rfl) (Or.inr rfl)
      200 "ok".toList [] (by omega)

theorem mergeGo_eq (incoming : List ReleaseItem) :
    ∀ (descs : List (List Char)) (acc : List ReleaseItem),
      mergeGo descs acc incoming =
        acc ++ incoming.filter (fun it => decide (it.description ∉ descs)) := by
  induction incoming with
  | nil => intro descs acc; simp [mergeGo]
  | cons it rest ih =>
    intro descs acc
    by_cases h : it.description ∈ descs
    · simp [mergeGo, h, ih]
    · simp [mergeGo, h, ih]

theorem alookup_dictInsert (m : List (SectionType × ReleaseSection)) (k : SectionType)
    (s : ReleaseSection) : alookup k (dictInsert m k s) = some s := by
  induction m with
  | nil => simp [dictInsert, alookup]
  | cons p m ih =>
    by_cases hk : p.1 = k
    · have hsome : (alookup k (p :: m)).isSome = true := by
        cases p with
        | mk k' v => simp only at hk; simp [alookup, hk]
      simp only [dictInsert, hsome, if_true, List.map_cons, if_pos hk]
      simp [alookup]
    · cases hsome : (alookup k m).isSome with
      | true =>
        have hsome' : (alookup k (p :: m)).isSome = true := by
          cases p with
          | mk k' v => simp only at hk; simp [alookup, hk, hsome]
        simp only [dictInsert, hsome', if_true, List.map_cons, if_neg hk]
        have hm : alookup k (m.map (fun q => if q.1 = k then (k, s) else q)) = some s := by
          have := ih
          simp only [dictInsert, hsome, if_true] at this
          exact this
        cases p with
        | mk k' v =>
          simp only at hk
          simp [alookup, hk, hm]
      | false =>
        have hsome' : (alookup k (p :: m)).isSome = false := by
          cases p with
          | mk k' v => simp only at hk; simp [alookup, hk, hsome]
        simp only [dictInsert, hsome', Bool.false_eq_true, if_false, List.cons_append]
        have hm : alookup k (m ++ [(k, s)]) = some s := by
          have := ih
          simp only [dictInsert, hsome, Bool.false_eq_true, if_false] at this
          exact this
        cases p with
        | mk k' v =>
          simp only at hk
          simp [alookup, hk, hm]

/-- C2 counterexample: the fetched breaking-change item matches an
already-present item case-insensitively, so the claim says it is skipped, but
the merge compares descriptions exactly and appends it. -/
theorem enrichBreaking_case_counterexample :
    pyLower c2IncomingItem.description = pyLower c2ExistingItem.description ∧
    c2IncomingItem.description ≠ c2ExistingItem.description ∧
    getSectionN (enrichBreaking c2Note (some ⟨.breaking_changes, [c2IncomingItem]⟩))
        .breaking_changes =
      some ⟨.breaking_changes, [c2ExistingItem, c2IncomingItem]⟩ := by
  refine ⟨by decide, by decide, by decide⟩

/-- C2 (amended): during enrichment, when the primary release note already has
a breaking-changes section and a fetched breaking-changes section is merged
into it, an incoming item is skipped if and only if some item present before
the merge began has exactly the same description (case-sensitive string
equality); otherwise the incoming items are appended in order after the
existing ones. -/
theorem enrichBreaking_dedup (rel : ReleaseNote) (ex b : ReleaseSection)
    (hex : alookup SectionType.breaking_changes rel.sections = some ex)
    (hne : b.items ≠ []) :
    getSectionN (enrichBreaking rel (some b)) .breaking_changes =
      some { ex with items := ex.items ++
        b.items.filter (fun it => decide (∀ e ∈ ex.items, e.description ≠ it.description)) } := by
  have hemp : b.items.isEmpty = false := by
    cases hb : b.items with
    | nil => exact absurd hb hne
    | cons x xs => simp [List.isEmpty]
  simp only [enrichBreaking]
  rw [hemp]
  simp only [Bool.false_eq_true, if_false, hex]
  unfold getSectionN
  rw [alookup_dictInsert]
  congr 2
  unfold mergeBreakingItems
  rw [mergeGo_eq]
  congr 1
  apply List.filter_congr
  intro it _
  apply decide_eq_decide.mpr
  constructor
  · intro hnmem e he
    intro heq
    exact hnmem (List.mem_map.mpr ⟨e, he, heq⟩)
  · intro hall hmem
    obtain ⟨e, he, heq⟩ := List.mem_map.mp hmem
    exact hall e he heq

/-- Witness for C2 (amended) at a concrete input: one exact duplicate is
skipped and one new item is appended. -/
theorem enrichBreaking_dedup_witness :
    getSectionN (enrichBreaking c2Note
        (some ⟨.breaking_changes, [c2ExistingItem, c2IncomingItem]⟩)) .breaking_changes =
      some ⟨.breaking_changes, [c2ExistingItem, c2IncomingItem]⟩ := by
  have h := enrichBreaking_dedup c2Note ⟨.breaking_changes, [c2ExistingItem]⟩
    ⟨.breaking_changes, [c2ExistingItem, c2IncomingItem]⟩ (by decide) (by decide)
  rw [h]
  decide

theorem leadsWith_self_append (t r : List Char) : leadsWith t (t ++ r) = true := by
  induction t with
  | nil => rfl
  | cons c cs ih => simp [leadsWith, ih]

theorem matchTagNum_canonical (tag ds : List Char) (htag : tag ∈ tagList)
    (hne : ds ≠ []) (hdig : ∀ c ∈ ds, c.isDigit = true) :
    matchTagNum (tag ++ ds) = some (tagRank tag, digitsToNat ds) := by
  have htake : ds.takeWhile Char.isDigit = ds := List.takeWhile_eq_self_iff.mpr hdig
  have hemp : ds.isEmpty = false := by
    cases ds with
    | nil => exact absurd rfl hne
    | cons x xs => simp [List.isEmpty]
  simp only [tagList, List.mem_cons, List.mem_singleton, List.not_mem_nil, or_false] at htag
  rcases htag with rfl | rfl | rfl
  · have hdrop : (alphaChars ++ ds).drop 5 = ds := List.drop_left alphaChars ds
    simp [matchTagNum, matchTagNumGo, leadsWith_self_append, hdrop, htake, hemp, tagRank]
  · have hlead : leadsWith alphaChars (betaChars ++ ds) = false := by
      simp [alphaChars, betaChars, leadsWith]
    have hdrop : (betaChars ++ ds).drop 4 = ds := List.drop_left betaChars ds
    simp [matchTagNum, matchTagNumGo, hlead, leadsWith_self_append, hdrop, htake, hemp, tagRank,
      show betaChars ≠ alphaChars from by decide]
  · have hlead₁ : leadsWith alphaChars (rcChars ++ ds) = false := by
      simp [alphaChars, rcChars, leadsWith]
    have hlead₂ : leadsWith betaChars (rcChars ++ ds) = false := by
      simp [betaChars, rcChars, leadsWith]
    have hdrop : (rcChars ++ ds).drop 2 = ds := List.drop_left rcChars ds
    simp [matchTagNum, matchTagNumGo, hlead₁, hlead₂, leadsWith_self_append, hdrop, htake, hemp,
      tagRank, show rcChars ≠ alphaChars from by decide, show rcChars ≠ betaChars from by decide]

theorem vkey_canonical (ma mi pa : Nat) (tag ds : List Char) (htag : tag ∈ tagList)
    (hne : ds ≠ []) (hdig : ∀ c ∈ ds, c.isDigit = true) :
    vkey ⟨ma, mi, pa, some (tag ++ ds)⟩ = [ma, mi, pa, tagRank tag, digitsToNat ds] := by
  simp [vkey, matchTagNum_canonical tag ds htag hne hdig]

theorem lexLt_fourth (ma mi pa d e d' e' : Nat) (h : d < d') :
    lexLt [ma, mi, pa, d, e] [ma, mi, pa, d', e'] = true := by
  simp [lexLt, Nat.lt_irrefl, h]

theorem lexLt_fifth (ma mi pa d e e' : Nat) (h : e < e') :
    lexLt [ma, mi, pa, d, e] [ma, mi, pa, d, e'] = true := by
  simp [lexLt, Nat.lt_irrefl, h]

/-- C6 counterexample: the `Version` dataclass accepts any prerelease string;
`"foo"` is reported as a prerelease by `is_prerelease`, yet its comparison
tuple falls through to the release shape, so it is not strictly below the
release version — the two compare equal. -/
theorem version_order_counterexample :
    isPrereleaseV ⟨1, 2, 3, some ("foo".toList)⟩ = true ∧
    isPrereleaseV ⟨1, 2, 3, none⟩ = false ∧
    vlt ⟨1, 2, 3, some ("foo".toList)⟩ ⟨1, 2, 3, none⟩ = false ∧
    veq ⟨1, 2, 3, some ("foo".toList)⟩ ⟨1, 2, 3, none⟩ = true := by
  refine ⟨rfl, rfl, by decide, by decide⟩

/-- C6 (amended): for versions with equal `(major, minor, patch)` whose
prerelease fields are canonical (`None`, or a lowercase tag `alpha`/`beta`/`rc`
followed by at least one digit, the only shape `Version.parse` produces): a
prerelease version is strictly below the plain release; every alpha is below
every beta, which is below every rc; and within one tag the lower numeric
suffix is strictly below. -/
theorem version_prerelease_order (ma mi pa : Nat) :
    (∀ tag ds, tag ∈ tagList → ds ≠ [] → (∀ c ∈ ds, c.isDigit = true) →
        vlt ⟨ma, mi, pa, some (tag ++ ds)⟩ ⟨ma, mi, pa, none⟩ = true) ∧
    (∀ t₁ d₁ t₂ d₂, t₁ ∈ tagList → d₁ ≠ [] → (∀ c ∈ d₁, c.isDigit = true) →
        t₂ ∈ tagList → d₂ ≠ [] → (∀ c ∈ d₂, c.isDigit = true) →
        tagRank t₁ < tagRank t₂ →
        vlt ⟨ma, mi, pa, some (t₁ ++ d₁)⟩ ⟨ma, mi, pa, some (t₂ ++ d₂)⟩ = true) ∧
    (∀ t d₁ d₂, t ∈ tagList → d₁ ≠ [] → (∀ c ∈ d₁, c.isDigit = true) →
        d₂ ≠ [] → (∀ c ∈ d₂, c.isDigit = true) → digitsToNat d₁ < digitsToNat d₂ →
        vlt ⟨ma, mi, pa, some (t ++ d₁)⟩ ⟨ma, mi, pa, some (t ++ d₂)⟩ = true) := by
  refine ⟨?_, ?_, ?_⟩
  · intro tag ds htag hne hdig
    have hrank : tagRank tag < 3 := by
      simp only [tagList, List.mem_cons, List.mem_singleton, List.not_mem_nil, or_false] at htag
      rcases htag with rfl | rfl | rfl <;> simp [tagRank] <;> decide
    unfold vlt
    rw [vkey_canonical ma mi pa tag ds htag hne hdig]
    exact lexLt_fourth ma mi pa _ _ 3 0 hrank
  · intro t₁ d₁ t₂ d₂ ht₁ hne₁ hdig₁ ht₂ hne₂ hdig₂ hrank
    unfold vlt
    rw [vkey_canonical ma mi pa t₁ d₁ ht₁ hne₁ hdig₁,
      vkey_canonical ma mi pa t₂ d₂ ht₂ hne₂ hdig₂]
    exact lexLt_fourth ma mi pa _ _ _ _ hrank
  · intro t d₁ d₂ ht hne₁ hdig₁ hne₂ hdig₂ hnum
    unfold vlt
    rw [vkey_canonical ma mi pa t d₁ ht hne₁ hdig₁,
      vkey_canonical ma mi pa t d₂ ht hne₂ hdig₂]
    exact lexLt_fifth ma mi pa _ _ _ hnum

/-- Witness for C6 (amended) at concrete versions: alpha1 below the release,
alpha1 below beta1, rc1 below rc2. -/
theorem version_prerelease_order_witness :
    vlt ⟨9, 0, 0, some (alphaChars ++ ['1'])⟩ ⟨9, 0, 0, none⟩ = true ∧
    vlt ⟨9, 0, 0, some (alphaChars ++ ['1'])⟩ ⟨9, 0, 0, some (betaChars ++ ['1'])⟩ = true ∧
    vlt ⟨9, 0, 0, some (rcChars ++ ['1'])⟩ ⟨9, 0, 0, some (rcChars ++ ['2'])⟩ = true := by
  obtain ⟨h1, h2, h3⟩ := version_prerelease_order 9 0 0
  refine ⟨h1 alphaChars ['1'] (by decide) (by decide) (by decide),
    h2 alphaChars ['1'] betaChars ['1'] (by decide) (by decide) (by decide) (by decide)
      (by decide) (by decide) (by decide),
    h3 rcChars ['1'] ['2'] (by decide) (by decide) (by decide) (by decide) (by decide)
      (by decide)⟩

/-! ## C4: `VersionRange.filter_versions` -/

instance : IsTotal (List Nat) rkeyLe := ⟨fun a b => lexLe_total a b⟩

instance : IsTrans (List Nat) rkeyLe := ⟨fun _ _ _ h₁ h₂ => lexLe_trans h₁ h₂⟩

instance : IsAntisymm (List Nat) rkeyLe := ⟨fun _ _ h₁ h₂ => lexLe_antisymm h₁ h₂⟩

theorem sorted_map_vkey {l : List Version} (h : List.Sorted rvle l) :
    List.Sorted rkeyLe (l.map vkey) := by
  rw [List.Sorted, List.pairwise_map]
  exact h.imp (fun hab => hab)

theorem rangeContains_iff (r : VersionRange) (v : Version) :
    rangeContains r v = true ↔
      (vlt r.start v = true ∧ ∀ e, r.stop = some e → vle v e = true) := by
  have hsv : vle v r.start = !(vlt r.start v) := rfl
  unfold rangeContains
  cases hstop : r.stop with
  | none =>
    rw [hsv]
    cases h : vlt r.start v <;> simp [h]
  | some e =>
    have hev : vle v e = !(vlt e v) := rfl
    rw [hsv]
    cases h : vlt r.start v <;> cases h2 : vlt e v <;> simp [h, hev, h2]

theorem mem_filterVersions (r : VersionRange) (vs : List Version) (v : Version) :
    v ∈ filterVersions r vs ↔ v ∈ vs ∧ rangeContains r v = true := by
  unfold filterVersions pySortVersions
  rw [List.mem_insertionSort, List.mem_filter]

theorem sorted_filterVersions (r : VersionRange) (vs : List Version) :
    List.Sorted rvle (filterVersions r vs) :=
  List.sorted_insertionSort rvle (vs.filter (rangeContains r))

/-- C4 (amended): `filter_versions` returns exactly the elements of `vs` with
`v > start` and (`end` absent or `v <= end`), sorted ascending; `start` itself
(anything comparing equal to it) is excluded, and `end` itself is included when
it occurs in `vs` and `start < end`; the function is idempotent, and permuting
the input leaves the output unchanged up to Python list equality (pointwise
`Version.__eq__`, i.e. equal comparison tuples). -/
theorem filter_versions_spec (r : VersionRange) (vs : List Version) :
    (∀ v, v ∈ filterVersions r vs ↔
        (v ∈ vs ∧ vlt r.start v = true ∧ ∀ e, r.stop = some e → vle v e = true)) ∧
    List.Sorted rvle (filterVersions r vs) ∧
    (∀ w ∈ filterVersions r vs, vkey w ≠ vkey r.start) ∧
    (∀ e, r.stop = some e → vlt r.start e = true → e ∈ vs → e ∈ filterVersions r vs) ∧
    filterVersions r (filterVersions r vs) = filterVersions r vs ∧
    (∀ vs', vs.Perm vs' →
        (filterVersions r vs).map vkey = (filterVersions r vs').map vkey) := by
  refine ⟨?_, sorted_filterVersions r vs, ?_, ?_, ?_, ?_⟩
  · intro v
    rw [mem_filterVersions, rangeContains_iff]
  · intro w hw
    obtain ⟨-, hc⟩ := (mem_filterVersions r vs w).mp hw
    obtain ⟨hlt, -⟩ := (rangeContains_iff r w).mp hc
    intro heq
    unfold vlt at hlt
    rw [heq, lexLt_irrefl] at hlt
    exact Bool.noConfusion hlt
  · intro e hstop hlt hmem
    refine (mem_filterVersions r vs e).mpr ⟨hmem, (rangeContains_iff r e).mpr ⟨hlt, ?_⟩⟩
    intro e' he'
    rw [hstop] at he'
    cases he'
    exact lexLe_refl _
  · have hfix : (filterVersions r vs).filter (rangeContains r) = filterVersions r vs := by
      apply List.filter_eq_self.mpr
      intro v hv
      exact ((mem_filterVersions r vs v).mp hv).2
    show pySortVersions ((filterVersions r vs).filter (rangeContains r)) = filterVersions r vs
    rw [hfix]
    exact (sorted_filterVersions r vs).insertionSort_eq
  · intro vs' hp
    have hperm : (filterVersions r vs).Perm (filterVersions r vs') :=
      (List.perm_insertionSort rvle _).trans ((hp.filter _).trans
        (List.perm_insertionSort rvle _).symm)
    exact List.eq_of_perm_of_sorted (hperm.map vkey)
      (sorted_map_vkey (sorted_filterVersions r vs))
      (sorted_map_vkey (sorted_filterVersions r vs'))

/-- C4 counterexample: with `start = end = 1.0.0` both present in `vs`, the
claim asserts `end` itself is included, but `contains` rejects everything
`<= start`, so the result is empty. -/
theorem filter_versions_counterexample :
    filterVersions ⟨⟨1, 0, 0, none⟩, some ⟨1, 0, 0, none⟩⟩ [⟨1, 0, 0, none⟩] = [] := by
  decide

/-- Witness for C4 at concrete inputs: the end version 9.1.0 of the range
(9.0.0, 9.1.0] is included, and a permuted input gives the same output. -/
theorem filter_versions_spec_witness :
    ((⟨9, 1, 0, none⟩ : Version) ∈
      filterVersions ⟨⟨9, 0, 0, none⟩, some ⟨9, 1, 0, none⟩⟩
        [⟨8, 19, 0, none⟩, ⟨9, 1, 0, none⟩, ⟨9, 0, 0, none⟩]) ∧
    (filterVersions ⟨⟨9, 0, 0, none⟩, none⟩ [⟨9, 1, 0, none⟩, ⟨9, 2, 0, none⟩]).map vkey =
      (filterVersions ⟨⟨9, 0, 0, none⟩, none⟩ [⟨9, 2, 0, none⟩, ⟨9, 1, 0, none⟩]).map vkey := by
  constructor
  · exact (filter_versions_spec ⟨⟨9, 0, 0, none⟩, some ⟨9, 1, 0, none⟩⟩
      [⟨8, 19, 0, none⟩, ⟨9, 1, 0, none⟩, ⟨9, 0, 0, none⟩]).2.2.2.1 ⟨9, 1, 0, none⟩ rfl
      (by decide) (by decide)
  · exact (filter_versions_spec ⟨⟨9, 0, 0, none⟩, none⟩
      [⟨9, 1, 0, none⟩, ⟨9, 2, 0, none⟩]).2.2.2.2.2
      [⟨9, 2, 0, none⟩, ⟨9, 1, 0, none⟩] (by decide)

/-! ## C8: `compile_product` end version -/

theorem sorted_getLast_max (l : List Version) (hs : List.Sorted rvle l) (m : Version)
    (hm : l.getLast? = some m) : m ∈ l ∧ ∀ v ∈ l, vle v m = true := by
  induction l with
  | nil => simp at hm
  | cons a t ih =>
    cases t with
    | nil =>
      simp only [List.getLast?_singleton, Option.some_inj] at hm
      subst hm
      exact ⟨List.mem_singleton_self a, fun v hv => by
        rw [List.mem_singleton] at hv
        subst hv
        exact lexLe_refl _⟩
    | cons b t' =>
      have hm' : (b :: t').getLast? = some m := by
        rwa [List.getLast?_cons_cons] at hm
      obtain ⟨hmem, hall⟩ := ih hs.of_cons hm'
      refine ⟨List.mem_cons_of_mem a hmem, ?_⟩
      intro v hv
      rcases List.mem_cons.mp hv with rfl | hv'
      · exact List.rel_of_sorted_cons hs m hmem
      · exact hall v hv'

theorem sorted_targetVersions (start : Version) (stop : Option Version) (includePre : Bool)
    (allVs : List Version) : List.Sorted rvle (targetVersions start stop includePre allVs) := by
  unfold targetVersions
  cases includePre with
  | true => exact sorted_filterVersions _ _
  | false => exact (sorted_filterVersions _ _).filter _

theorem targetVersions_nil (start : Version) (stop : Option Version) (includePre : Bool) :
    targetVersions start stop includePre [] = [] := by
  cases includePre <;> rfl

/-- C8: `compile_product` sets the returned end version to the explicitly
requested end when one is given; otherwise, when the filtered target set is
non-empty, to the latest version in that set (a member that is `>=` every
member); otherwise to the start version. -/
theorem compile_product_end_version (product : List Char) (start : Version)
    (stop : Option Version) (includePre : Bool) (allVs : List Version)
    (fetch : Version → Option ReleaseNote) :
    (∀ e, stop = some e →
        (compileProduct product start stop includePre allVs fetch).end_version = e) ∧
    (stop = none → targetVersions start none includePre allVs ≠ [] →
        ((compileProduct product start none includePre allVs fetch).end_version ∈
            targetVersions start none includePre allVs ∧
          ∀ v ∈ targetVersions start none includePre allVs,
            vle v (compileProduct product start none includePre allVs fetch).end_version
              = true)) ∧
    (stop = none → targetVersions start none includePre allVs = [] →
        (compileProduct product start none includePre allVs fetch).end_version = start) := by
  refine ⟨?_, ?_, ?_⟩
  · intro e he
    subst he
    unfold compileProduct
    by_cases hA : allVs.isEmpty
    · simp [hA]
    · simp [hA]
  · intro h hne
    subst h
    unfold compileProduct
    by_cases hA : allVs.isEmpty
    · exfalso
      have : allVs = [] := by
        cases allVs with
        | nil => rfl
        | cons x xs => simp [List.isEmpty] at hA
      rw [this, targetVersions_nil] at hne
      exact hne rfl
    · simp only [hA, Bool.false_eq_true, if_false]
      cases hlast : (targetVersions start none includePre allVs).getLast? with
      | none =>
        exact absurd (List.getLast?_eq_none_iff.mp hlast) hne
      | some m =>
        obtain ⟨hmem, hall⟩ :=
          sorted_getLast_max _ (sorted_targetVersions start none includePre allVs) m hlast
        simpa [hlast] using ⟨hmem, hall⟩
  · intro h ht
    subst h
    unfold compileProduct
    by_cases hA : allVs.isEmpty
    · simp [hA]
    · simp only [hA, Bool.false_eq_true, if_false]
      simp [ht]

/-- Witness for C8 at concrete inputs: with no explicit end and target set
`[9.1.0]` the end version is its maximum 9.1.0; with an explicit end it is
returned as-is; with an empty target set the start is returned. -/
theorem compile_product_end_version_witness :
    ((compileProduct [] ⟨9, 0, 0, none⟩ none false [⟨9, 1, 0, none⟩] (fun _ => none)).end_version ∈
        targetVersions ⟨9, 0, 0, none⟩ none false [⟨9, 1, 0, none⟩] ∧
      ∀ v ∈ targetVersions ⟨9, 0, 0, none⟩ none false [⟨9, 1, 0, none⟩],
        vle v (compileProduct [] ⟨9, 0, 0, none⟩ none false [⟨9, 1, 0, none⟩]
          (fun _ => none)).end_version = true) ∧
    (compileProduct [] ⟨9, 0, 0, none⟩ (some ⟨9, 5, 0, none⟩) false [⟨9, 1, 0, none⟩]
        (fun _ => none)).end_version = ⟨9, 5, 0, none⟩ ∧
    (compileProduct [] ⟨9, 0, 0, none⟩ none false [⟨8, 0, 0, none⟩]
        (fun _ => none)).end_version = ⟨9, 0, 0, none⟩ := by
  refine ⟨?_, ?_, ?_⟩
  · exact (compile_product_end_version [] ⟨9, 0, 0, none⟩ none false [⟨9, 1, 0, none⟩]
      (fun _ => none)).2.1 rfl (by decide)
  · exact (compile_product_end_version [] ⟨9, 0, 0, none⟩ (some ⟨9, 5, 0, none⟩) false
      [⟨9, 1, 0, none⟩] (fun _ => none)).1 ⟨9, 5, 0, none⟩ rfl
  · exact (compile_product_end_version [] ⟨9, 0, 0, none⟩ none false [⟨8, 0, 0, none⟩]
      (fun _ => none)).2.2 rfl (by decide)

/-! ## C1: legacy parser on the scenario-A fragment -/

/-- C1 counterexample: stripping the `#1234` token from
`"Fixed crash (#1234)"` leaves the surrounding parentheses in place, so the
single extracted item's description is `"Fixed crash ()"`, not the claimed
`"Fixed crash"`. -/
theorem legacy_parse_counterexample :
    ((getSectionN (legacyParseReleaseNotes c1Doc ⟨8, 17, 3, none⟩ "elasticsearch".toList)
        .bug_fixes).map (fun s => s.items.map (fun it => it.description))) =
      some ["Fixed crash ()".toList] ∧
    "Fixed crash ()".toList ≠ "Fixed crash".toList := by
  refine ⟨by decide, by decide⟩

/-- C1 (amended): on the scenario-A fragment the parser produces a bug_fixes
section containing exactly one item, with pr_number 1234, the synthesized
pull-request URL, and description `"Fixed crash ()"` — digit-reference tokens
are stripped and whitespace collapsed, but the parenthesis characters around
the stripped token remain. -/
theorem legacy_parse_scenario_a :
    getSectionN (legacyParseReleaseNotes c1Doc ⟨8, 17, 3, none⟩ "elasticsearch".toList)
        .bug_fixes =
      some ⟨.bug_fixes, [⟨"Fixed crash ()".toList, none, some 1234,
        some "https://github.com/elastic/elasticsearch/pull/1234".toList,
        none, none, none, none⟩]⟩ := by
  decide

/-! ## C5/C10: consolidation across releases

The nested release/item loops of `get_consolidated_section` are flattened into
the stream of `(item, version)` occurrences in processing order; the dict is
characterised per key by the occurrences carrying that key. -/

theorem consFoldFrom_append (m : List (DedupKey × ConsolidatedItem))
    (occ₁ occ₂ : List (ReleaseItem × Version)) :
    consFoldFrom m (occ₁ ++ occ₂) = consFoldFrom (consFoldFrom m occ₁) occ₂ :=
  List.foldl_append _ _ _ _

theorem releases_fold_eq_occ (t : SectionType) (rs : List ReleaseNote) :
    ∀ m, rs.foldl (consRelease t) m = consFoldFrom m (occList t rs) := by
  induction rs with
  | nil => intro m; rfl
  | cons r rs ih =>
    intro m
    have hocc : occList t (r :: rs) =
        (sectionItems r t).map (fun it => (it, r.version)) ++ occList t rs := rfl
    rw [List.foldl_cons, ih, hocc, consFoldFrom_append]
    congr 1
    show consRelease t m r = consFoldFrom m ((sectionItems r t).map (fun it => (it, r.version)))
    unfold consRelease consFoldFrom
    rw [List.foldl_map]

theorem getConsolidatedSection_eq (cr : CompiledReleaseNotes) (t : SectionType) :
    getConsolidatedSection cr t =
      List.insertionSort rconsLe ((consFoldFrom [] (occList t cr.releases)).map Prod.snd) := by
  unfold getConsolidatedSection
  rw [releases_fold_eq_occ]

theorem cmapLookup_map_update_other (m : List (DedupKey × ConsolidatedItem)) (k k' : DedupKey)
    (f : ConsolidatedItem → ConsolidatedItem) (hne : k' ≠ k) :
    cmapLookup k (m.map (fun p => if p.1 = k' then (p.1, f p.2) else p)) = cmapLookup k m := by
  induction m with
  | nil => rfl
  | cons p m ih =>
    obtain ⟨k₀, c₀⟩ := p
    have hmap : (if (k₀, c₀).1 = k' then ((k₀, c₀).1, f (k₀, c₀).2) else (k₀, c₀)) =
        if k₀ = k' then (k₀, f c₀) else (k₀, c₀) := by
      by_cases h : k₀ = k' <;> simp [h]
    rw [List.map_cons, hmap]
    by_cases h : k₀ = k'
    · subst h
      rw [if_pos rfl]
      have hne₀ : k₀ ≠ k := hne
      simp [cmapLookup, hne₀, ih]
    · rw [if_neg h]
      by_cases h2 : k₀ = k <;> simp [cmapLookup, h2, ih]

theorem cmapLookup_map_update_self (m : List (DedupKey × ConsolidatedItem)) (k : DedupKey)
    (f : ConsolidatedItem → ConsolidatedItem) (c : ConsolidatedItem)
    (h : cmapLookup k m = some c) :
    cmapLookup k (m.map (fun p => if p.1 = k then (p.1, f p.2) else p)) = some (f c) := by
  induction m with
  | nil => simp [cmapLookup] at h
  | cons p m ih =>
    obtain ⟨k₀, c₀⟩ := p
    have hmap : (if (k₀, c₀).1 = k then ((k₀, c₀).1, f (k₀, c₀).2) else (k₀, c₀)) =
        if k₀ = k then (k₀, f c₀) else (k₀, c₀) := by
      by_cases hk : k₀ = k <;> simp [hk]
    rw [List.map_cons, hmap]
    by_cases hk : k₀ = k
    · subst hk
      rw [if_pos rfl]
      simp only [cmapLookup, if_true, eq_self_iff_true, Option.some_inj] at h
      subst h
      simp [cmapLookup]
    · rw [if_neg hk]
      simp only [cmapLookup, if_neg hk] at h
      simp [cmapLookup, hk, ih h]

theorem cmapLookup_append_single_other (m : List (DedupKey × ConsolidatedItem)) (k k' : DedupKey)
    (x : ConsolidatedItem) (hne : k' ≠ k) :
    cmapLookup k (m ++ [(k', x)]) = cmapLookup k m := by
  induction m with
  | nil => simp [cmapLookup, hne]
  | cons p m ih =>
    cases p with
    | mk k₀ c₀ => by_cases h : k₀ = k <;> simp [cmapLookup, h, ih]

theorem cmapLookup_append_single_self (m : List (DedupKey × ConsolidatedItem)) (k : DedupKey)
    (x : ConsolidatedItem) (h : cmapLookup k m = none) :
    cmapLookup k (m ++ [(k, x)]) = some x := by
  induction m with
  | nil => simp [cmapLookup]
  | cons p m ih =>
    cases p with
    | mk k₀ c₀ =>
      by_cases hk : k₀ = k
      · subst hk; simp [cmapLookup] at h
      · simp only [cmapLookup, if_neg hk] at h
        simp [cmapLookup, hk, ih h]

theorem cmapLookup_eq_none_iff (m : List (DedupKey × ConsolidatedItem)) (k : DedupKey) :
    cmapLookup k m = none ↔ k ∉ m.map Prod.fst := by
  induction m with
  | nil => simp [cmapLookup]
  | cons p m ih =>
    obtain ⟨k₀, c₀⟩ := p
    by_cases h : k₀ = k
    · subst h; simp [cmapLookup]
    · have h' : ¬ k = k₀ := fun hh => h hh.symm
      simp [cmapLookup, h, h', ih]

theorem consStep_of_none (m : List (DedupKey × ConsolidatedItem)) (v : Version)
    (it : ReleaseItem) (h : cmapLookup (dedupKey it) m = none) :
    consStep v m it = m ++ [(dedupKey it, fromReleaseItem it v)] := by
  simp only [consStep, h]

theorem consStep_of_some (m : List (DedupKey × ConsolidatedItem)) (v : Version)
    (it : ReleaseItem) (c : ConsolidatedItem) (h : cmapLookup (dedupKey it) m = some c) :
    consStep v m it =
      m.map (fun p => if p.1 = dedupKey it then (p.1, addVersion p.2 v) else p) := by
  simp only [consStep, h]

theorem consFold_lookup (occ : List (ReleaseItem × Version)) (k : DedupKey) :
    cmapLookup k (consFoldFrom [] occ) =
      match occ.filter (fun p => decide (dedupKey p.1 = k)) with
      | [] => none
      | (it, v) :: rest => some (buildEntry it v (rest.map Prod.snd)) := by
  induction occ using List.reverseRecOn with
  | nil => rfl
  | append_singleton occ p ih =>
    obtain ⟨it, v⟩ := p
    rw [consFoldFrom_append]
    have hstep : consFoldFrom (consFoldFrom [] occ) [(it, v)] =
        consStep v (consFoldFrom [] occ) it := rfl
    rw [hstep]
    by_cases hk : dedupKey it = k
    · rw [List.filter_append]
      have hf : List.filter (fun p => decide (dedupKey p.1 = k)) [(it, v)] = [(it, v)] := by
        simp [hk]
      rw [hf]
      cases hocc : List.filter (fun p => decide (dedupKey p.1 = k)) occ with
      | nil =>
        have hnone : cmapLookup (dedupKey it) (consFoldFrom [] occ) = none := by
          rw [hk, ih, hocc]
        rw [consStep_of_none _ _ _ hnone, hk,
          cmapLookup_append_single_self _ _ _ (by rw [← hk]; exact hnone)]
        rfl
      | cons q rest =>
        obtain ⟨it₀, v₀⟩ := q
        have hsome : cmapLookup (dedupKey it) (consFoldFrom [] occ) =
            some (buildEntry it₀ v₀ (rest.map Prod.snd)) := by
          rw [hk, ih, hocc]
        rw [consStep_of_some _ _ _ _ hsome, hk]
        have hsome' : cmapLookup k (consFoldFrom [] occ) =
            some (buildEntry it₀ v₀ (rest.map Prod.snd)) := by rw [← hk]; exact hsome
        have hupd := cmapLookup_map_update_self (consFoldFrom [] occ) k
          (fun c => addVersion c v) _ hsome'
        simp only at hupd
        rw [hupd]
        have hbuild : addVersion (buildEntry it₀ v₀ (rest.map Prod.snd)) v =
            buildEntry it₀ v₀ ((rest ++ [(it, v)]).map Prod.snd) := by
          unfold buildEntry
          rw [List.map_append, List.foldl_append]
          rfl
        rw [hbuild]
        rfl
    · rw [List.filter_append]
      have hf : List.filter (fun p => decide (dedupKey p.1 = k)) [(it, v)] = [] := by
        simp [hk]
      rw [hf, List.append_nil]
      cases hlk : cmapLookup (dedupKey it) (consFoldFrom [] occ) with
      | some c₀ =>
        rw [consStep_of_some _ _ _ _ hlk]
        have hoth := cmapLookup_map_update_other (consFoldFrom [] occ) k (dedupKey it)
          (fun c => addVersion c v) hk
        simp only at hoth
        rw [hoth, ih]
      | none =>
        rw [consStep_of_none _ _ _ hlk,
          cmapLookup_append_single_other _ _ _ _ hk, ih]

theorem consStep_keys (m : List (DedupKey × ConsolidatedItem)) (v : Version) (it : ReleaseItem) :
    (consStep v m it).map Prod.fst =
      if (cmapLookup (dedupKey it) m).isSome then m.map Prod.fst
      else m.map Prod.fst ++ [dedupKey it] := by
  unfold consStep
  cases hlk : cmapLookup (dedupKey it) m with
  | some c =>
    simp only [hlk, Option.isSome_some, if_true]
    rw [List.map_map]
    apply List.map_congr_left
    intro p _
    by_cases h : p.1 = dedupKey it <;> simp [h]
  | none =>
    simp [hlk]

theorem consFold_keys_nodup (occ : List (ReleaseItem × Version)) :
    ((consFoldFrom [] occ).map Prod.fst).Nodup := by
  induction occ using List.reverseRecOn with
  | nil => exact List.nodup_nil
  | append_singleton occ p ih =>
    obtain ⟨it, v⟩ := p
    rw [consFoldFrom_append]
    have hstep : consFoldFrom (consFoldFrom [] occ) [(it, v)] =
        consStep v (consFoldFrom [] occ) it := rfl
    rw [hstep, consStep_keys]
    cases hlk : cmapLookup (dedupKey it) (consFoldFrom [] occ) with
    | some c => simpa using ih
    | none =>
      have hnot : dedupKey it ∉ (consFoldFrom [] occ).map Prod.fst :=
        (cmapLookup_eq_none_iff _ _).mp hlk
      simp only [Option.isSome_none, Bool.false_eq_true, if_false]
      exact List.Nodup.append ih (List.nodup_singleton _)
        (List.disjoint_singleton.mpr hnot)

theorem cmapLookup_of_mem (m : List (DedupKey × ConsolidatedItem))
    (hnod : (m.map Prod.fst).Nodup) (k : DedupKey) (c : ConsolidatedItem)
    (hmem : (k, c) ∈ m) : cmapLookup k m = some c := by
  induction m with
  | nil => simp at hmem
  | cons p m ih =>
    obtain ⟨k₀, c₀⟩ := p
    rw [List.map_cons, List.nodup_cons] at hnod
    rcases List.mem_cons.mp hmem with heq | hmem'
    · obtain ⟨rfl, rfl⟩ := Prod.mk.injEq .. ▸ And.intro (congrArg Prod.fst heq)
        (congrArg Prod.snd heq)
      simp [cmapLookup]
    · have hk : k₀ ≠ k := by
        intro hh
        subst hh
        exact hnod.1 (List.mem_map.mpr ⟨(k₀, c), hmem', rfl⟩)
      simp only [cmapLookup, if_neg hk]
      exact ih hnod.2 hmem'

theorem addVersion_fields (c : ConsolidatedItem) (v : Version) :
    addVersion c v = { c with versions := (addVersion c v).versions } := by
  unfold addVersion
  split <;> rfl

theorem foldl_addVersion_fields (vs : List Version) :
    ∀ c : ConsolidatedItem,
      vs.foldl addVersion c = { c with versions := (vs.foldl addVersion c).versions } := by
  induction vs with
  | nil => intro c; rfl
  | cons u vs ih =>
    intro c
    rw [List.foldl_cons, ih (addVersion c u)]
    rw [addVersion_fields c u]

theorem buildEntry_fields (it : ReleaseItem) (v : Version) (vs : List Version) :
    (buildEntry it v vs).description = it.description ∧
    (buildEntry it v vs).category = it.category ∧
    (buildEntry it v vs).pr_number = it.pr_number ∧
    (buildEntry it v vs).pr_url = it.pr_url ∧
    (buildEntry it v vs).issue_number = it.issue_number ∧
    (buildEntry it v vs).issue_url = it.issue_url ∧
    (buildEntry it v vs).impact = it.impact ∧
    (buildEntry it v vs).action = it.action := by
  have h := foldl_addVersion_fields vs (fromReleaseItem it v)
  unfold buildEntry
  rw [h]
  exact ⟨rfl, rfl, rfl, rfl, rfl, rfl, rfl, rfl⟩

theorem addVersion_versions (c : ConsolidatedItem) (v : Version) (h : versOK c.versions) :
    versOK (addVersion c v).versions ∧
    (∃ w ∈ (addVersion c v).versions, vkey w = vkey v) ∧
    (∀ w ∈ (addVersion c v).versions, w ∈ c.versions ∨ w = v) ∧
    (∀ w ∈ c.versions, w ∈ (addVersion c v).versions) := by
  unfold addVersion
  by_cases hany : c.versions.any (fun w => veq w v) = true
  · rw [if_pos hany]
    obtain ⟨w, hw, hveq⟩ := List.any_eq_true.mp hany
    refine ⟨h, ⟨w, hw, of_decide_eq_true hveq⟩, fun w hw => Or.inl hw, fun w hw => hw⟩
  · rw [if_neg hany]
    have hnotk : ∀ w ∈ c.versions, vkey w ≠ vkey v := by
      intro w hw hc
      exact hany (List.any_eq_true.mpr ⟨w, hw, decide_eq_true hc⟩)
    have hperm : (pySortVersions (c.versions ++ [v])).Perm (c.versions ++ [v]) :=
      List.perm_insertionSort rvle _
    have hpair : List.Pairwise (fun a b => vkey a ≠ vkey b) (c.versions ++ [v]) := by
      rw [List.pairwise_append]
      exact ⟨h.2, List.pairwise_singleton _ _,
        fun a ha b hb => by
          rw [List.mem_singleton] at hb
          subst hb
          exact hnotk a ha⟩
    refine ⟨⟨List.sorted_insertionSort rvle _,
        (hperm.pairwise_iff (fun hab hc => hab hc.symm)).mpr hpair⟩,
      ⟨v, ?_, rfl⟩, ?_, ?_⟩
    · show v ∈ List.insertionSort rvle (c.versions ++ [v])
      rw [List.mem_insertionSort, List.mem_append]
      exact Or.inr (List.mem_singleton_self v)
    · intro w hw
      replace hw : w ∈ List.insertionSort rvle (c.versions ++ [v]) := hw
      rw [List.mem_insertionSort, List.mem_append, List.mem_singleton] at hw
      exact hw
    · intro w hw
      show w ∈ List.insertionSort rvle (c.versions ++ [v])
      rw [List.mem_insertionSort, List.mem_append]
      exact Or.inl hw

theorem foldl_addVersion_spec (vs : List Version) :
    ∀ c : ConsolidatedItem, versOK c.versions →
      versOK ((vs.foldl addVersion c).versions) ∧
      (∀ w ∈ c.versions, w ∈ (vs.foldl addVersion c).versions) ∧
      (∀ w ∈ vs, ∃ w' ∈ (vs.foldl addVersion c).versions, vkey w' = vkey w) ∧
      (∀ w ∈ (vs.foldl addVersion c).versions, w ∈ c.versions ∨ w ∈ vs) := by
  induction vs with
  | nil =>
    intro c h
    exact ⟨h, fun w hw => hw, fun w hw => absurd hw (List.not_mem_nil w),
      fun w hw => Or.inl hw⟩
  | cons u vs ih =>
    intro c h
    obtain ⟨hOK, hex, hprovA, hkeepA⟩ := addVersion_versions c u h
    obtain ⟨ihOK, ihkeep, ihnew, ihprov⟩ := ih (addVersion c u) hOK
    rw [List.foldl_cons]
    refine ⟨ihOK, ?_, ?_, ?_⟩
    · intro w hw
      exact ihkeep w (hkeepA w hw)
    · intro w hw
      rcases List.mem_cons.mp hw with rfl | hw'
      · obtain ⟨w', hw', hk⟩ := hex
        exact ⟨w', ihkeep w' hw', hk⟩
      · exact ihnew w hw'
    · intro w hw
      rcases ihprov w hw with hin | hin
      · rcases hprovA w hin with hin' | rfl
        · exact Or.inl hin'
        · exact Or.inr (List.mem_cons_self w vs)
      · exact Or.inr (List.mem_cons_of_mem u hin)

theorem buildEntry_versions (it : ReleaseItem) (v : Version) (vs : List Version) :
    versOK (buildEntry it v vs).versions ∧
    (∀ w, (w = v ∨ w ∈ vs) →
        ∃ w' ∈ (buildEntry it v vs).versions, vkey w' = vkey w) ∧
    (∀ w ∈ (buildEntry it v vs).versions, w = v ∨ w ∈ vs) := by
  have hbase : versOK (fromReleaseItem it v).versions := by
    refine ⟨List.sorted_singleton v, List.pairwise_singleton _ v⟩
  obtain ⟨hOK, hkeep, hnew, hprov⟩ := foldl_addVersion_spec vs (fromReleaseItem it v) hbase
  refine ⟨hOK, ?_, ?_⟩
  · intro w hw
    rcases hw with rfl | hw'
    · exact ⟨w, hkeep w (List.mem_singleton_self w), rfl⟩
    · exact hnew w hw'
  · intro w hw
    rcases hprov w hw with hin | hin
    · rw [show (fromReleaseItem it v).versions = [v] from rfl, List.mem_singleton] at hin
      exact Or.inl hin
    · exact Or.inr hin

theorem consFold_entry_src (occ : List (ReleaseItem × Version))
    (p : DedupKey × ConsolidatedItem) (hp : p ∈ consFoldFrom [] occ) :
    ∃ it v rest, occ.filter (fun q => decide (dedupKey q.1 = p.1)) = (it, v) :: rest ∧
      p.2 = buildEntry it v (rest.map Prod.snd) ∧ dedupKey it = p.1 := by
  obtain ⟨k, c⟩ := p
  have hlk := cmapLookup_of_mem _ (consFold_keys_nodup occ) k c hp
  have hchar := consFold_lookup occ k
  rw [hlk] at hchar
  cases hocc : occ.filter (fun q => decide (dedupKey q.1 = k)) with
  | nil =>
    rw [hocc] at hchar
    exact absurd hchar (by simp)
  | cons q rest =>
    obtain ⟨it, v⟩ := q
    rw [hocc] at hchar
    have hkey : dedupKey it = k := by
      have hmem : (it, v) ∈ occ.filter (fun q => decide (dedupKey q.1 = k)) := by
        rw [hocc]; exact List.mem_cons_self _ _
      exact of_decide_eq_true (List.mem_filter.mp hmem).2
    exact ⟨it, v, rest, rfl, by injection hchar, hkey⟩

theorem dedupKey_pr_iff (it : ReleaseItem) (n : Nat) :
    dedupKey it = .pr n ↔ (it.pr_number = some n ∧ n ≠ 0) := by
  cases hpn : it.pr_number with
  | none => simp [dedupKey, hpn]
  | some m =>
    simp only [dedupKey, hpn]
    by_cases hm : m ≠ 0
    · rw [if_pos hm]
      constructor
      · intro h
        injection h with h
        subst h
        exact ⟨rfl, hm⟩
      · rintro ⟨h, -⟩
        injection h with h
        subst h
        rfl
    · rw [if_neg hm]
      push_neg at hm
      subst hm
      constructor
      · intro h; exact absurd h (by simp)
      · rintro ⟨h, hn⟩
        injection h with h
        exact absurd h.symm hn

theorem filter_map_snd_unique (m : List (DedupKey × ConsolidatedItem)) (k : DedupKey)
    (c : ConsolidatedItem) (prop : ConsolidatedItem → Bool)
    (hnod : (m.map Prod.fst).Nodup) (hlk : cmapLookup k m = some c)
    (hiff : ∀ p ∈ m, (prop p.2 = true ↔ p.1 = k)) :
    (m.map Prod.snd).filter prop = [c] := by
  induction m with
  | nil => simp [cmapLookup] at hlk
  | cons p m ih =>
    obtain ⟨k₀, c₀⟩ := p
    rw [List.map_cons, List.nodup_cons] at hnod
    by_cases hk : k₀ = k
    · subst hk
      simp only [cmapLookup, if_true, eq_self_iff_true, Option.some_inj] at hlk
      subst hlk
      have hp : prop c₀ = true :=
        ((hiff (k₀, c₀) (List.mem_cons_self _ _)).mpr rfl)
      have hrest : (m.map Prod.snd).filter prop = [] := by
        apply List.filter_eq_nil.mpr
        intro a ha
        obtain ⟨⟨k₁, c₁⟩, hq, hq2⟩ := List.mem_map.mp ha
        intro hpa
        have hc₁ : c₁ = a := hq2
        subst hc₁
        have hk₁ : k₁ = k₀ := (hiff (k₁, c₁) (List.mem_cons_of_mem _ hq)).mp hpa
        subst hk₁
        exact hnod.1 (List.mem_map.mpr ⟨(k₁, c₁), hq, rfl⟩)
      rw [List.map_cons, List.filter_cons_of_pos hp, hrest]
    · simp only [cmapLookup, if_neg hk] at hlk
      have hp : prop c₀ = false := by
        cases hprop : prop c₀ with
        | false => rfl
        | true => exact absurd ((hiff (k₀, c₀) (List.mem_cons_self _ _)).mp hprop) hk
      rw [List.map_cons, List.filter_cons_of_neg (by simp [hp])]
      exact ih hnod.2 hlk (fun q hq => hiff q (List.mem_cons_of_mem _ hq))

/-- C5 (amended): when two releases of versions with different comparison
tuples both carry, in the same section type, an item with the same nonzero
pull-request number `n` (a zero `pr_number` is falsy in Python and falls back
to the description key), `get_consolidated_section` returns exactly one
consolidated item whose `pr_number` is `n`; its version list contains both
versions (under `Version.__eq__`) and is strictly ascending with no duplicate. -/
theorem consolidated_pr_dedup (cr : CompiledReleaseNotes) (t : SectionType)
    (r₁ r₂ : ReleaseNote) (i₁ i₂ : ReleaseItem) (n : Nat)
    (hr₁ : r₁ ∈ cr.releases) (hr₂ : r₂ ∈ cr.releases)
    (hvne : vkey r₁.version ≠ vkey r₂.version)
    (hi₁ : i₁ ∈ sectionItems r₁ t) (hi₂ : i₂ ∈ sectionItems r₂ t)
    (hn₁ : i₁.pr_number = some n) (hn₂ : i₂.pr_number = some n) (hn0 : n ≠ 0) :
    ∃ c, (getConsolidatedSection cr t).filter (fun c => decide (c.pr_number = some n)) = [c] ∧
      (∃ w ∈ c.versions, vkey w = vkey r₁.version) ∧
      (∃ w ∈ c.versions, vkey w = vkey r₂.version) ∧
      List.Pairwise (fun a b => vlt a b = true) c.versions := by
  have hk₁ : dedupKey i₁ = .pr n := (dedupKey_pr_iff i₁ n).mpr ⟨hn₁, hn0⟩
  have hk₂ : dedupKey i₂ = .pr n := (dedupKey_pr_iff i₂ n).mpr ⟨hn₂, hn0⟩
  have hocc₁ : (i₁, r₁.version) ∈ occList t cr.releases :=
    List.mem_bind.mpr ⟨r₁, hr₁, List.mem_map.mpr ⟨i₁, hi₁, rfl⟩⟩
  have hocc₂ : (i₂, r₂.version) ∈ occList t cr.releases :=
    List.mem_bind.mpr ⟨r₂, hr₂, List.mem_map.mpr ⟨i₂, hi₂, rfl⟩⟩
  have hfil₁ : (i₁, r₁.version) ∈
      (occList t cr.releases).filter (fun q => decide (dedupKey q.1 = DedupKey.pr n)) :=
    List.mem_filter.mpr ⟨hocc₁, decide_eq_true hk₁⟩
  have hfil₂ : (i₂, r₂.version) ∈
      (occList t cr.releases).filter (fun q => decide (dedupKey q.1 = DedupKey.pr n)) :=
    List.mem_filter.mpr ⟨hocc₂, decide_eq_true hk₂⟩
  cases hocc : (occList t cr.releases).filter
      (fun q => decide (dedupKey q.1 = DedupKey.pr n)) with
  | nil => rw [hocc] at hfil₁; exact absurd hfil₁ (List.not_mem_nil _)
  | cons q rest =>
    obtain ⟨it₀, v₀⟩ := q
    have hchar := consFold_lookup (occList t cr.releases) (DedupKey.pr n)
    rw [hocc] at hchar
    set M := consFoldFrom [] (occList t cr.releases) with hM
    set c₀ := buildEntry it₀ v₀ (rest.map Prod.snd) with hc₀
    have hchar' : cmapLookup (DedupKey.pr n) M = some c₀ := hchar
    have hiff : ∀ p ∈ M, ((fun c => decide (c.pr_number = some n)) p.2 = true ↔
        p.1 = DedupKey.pr n) := by
      intro p hp
      obtain ⟨it, v, rest', hfeq, hpe, hke⟩ := consFold_entry_src _ p hp
      have hfields := (buildEntry_fields it v (rest'.map Prod.snd)).2.2.1
      constructor
      · intro hd
        have hpn : p.2.pr_number = some n := of_decide_eq_true hd
        rw [hpe, hfields] at hpn
        rw [← hke]
        exact (dedupKey_pr_iff it n).mpr ⟨hpn, hn0⟩
      · intro hpk
        rw [hpk] at hke
        obtain ⟨hitn, -⟩ := (dedupKey_pr_iff it n).mp hke
        apply decide_eq_true
        rw [hpe, hfields, hitn]
    have huniq : (M.map Prod.snd).filter (fun c => decide (c.pr_number = some n)) = [c₀] :=
      filter_map_snd_unique M (DedupKey.pr n) c₀ _ (consFold_keys_nodup _) hchar' hiff
    have hout : (getConsolidatedSection cr t).filter
        (fun c => decide (c.pr_number = some n)) = [c₀] := by
      rw [getConsolidatedSection_eq]
      have hperm := (List.perm_insertionSort rconsLe (M.map Prod.snd)).filter
        (fun c => decide (c.pr_number = some n))
      rw [huniq] at hperm
      exact List.perm_singleton.mp hperm
    obtain ⟨hOK, hcover, -⟩ := buildEntry_versions it₀ v₀ (rest.map Prod.snd)
    refine ⟨c₀, hout, ?_, ?_, ?_⟩
    · rcases List.mem_cons.mp (hocc ▸ hfil₁) with heq | hmem
      · have hv : r₁.version = v₀ := congrArg Prod.snd heq
        exact hcover r₁.version (Or.inl hv)
      · exact hcover r₁.version (Or.inr (List.mem_map.mpr ⟨(i₁, r₁.version), hmem, rfl⟩))
    · rcases List.mem_cons.mp (hocc ▸ hfil₂) with heq | hmem
      · have hv : r₂.version = v₀ := congrArg Prod.snd heq
        exact hcover r₂.version (Or.inl hv)
      · exact hcover r₂.version (Or.inr (List.mem_map.mpr ⟨(i₂, r₂.version), hmem, rfl⟩))
    · exact (hOK.1.and hOK.2).imp (fun hab => lexLt_of_le_of_ne hab.1 hab.2)

/-- C5 counterexample: both releases carry an item with the same pull-request
number 0 in the same section, their versions differ, yet the consolidated
output holds two items with that pull-request number, not one — `0` is falsy
in `if self.pr_number:`, so both items are keyed by their (distinct)
descriptions. -/
theorem consolidated_pr_zero_counterexample :
    (sectionItems c5RelA .bug_fixes).map (fun it => it.pr_number) = [some 0] ∧
    (sectionItems c5RelB .bug_fixes).map (fun it => it.pr_number) = [some 0] ∧
    vkey c5RelA.version ≠ vkey c5RelB.version ∧
    ((getConsolidatedSection c5Compiled .bug_fixes).filter
        (fun c => decide (c.pr_number = some 0))).length = 2 := by
  refine ⟨by decide, by decide, by decide, by decide⟩

/-- Witness for C5 (amended) at a concrete input: versions 8.17.0 and 8.17.1
both report pull-request 555 and consolidate into a single item carrying both
versions. -/
theorem consolidated_pr_dedup_witness :
    ∃ c, (getConsolidatedSection c5WComp .bug_fixes).filter
        (fun c => decide (c.pr_number = some 555)) = [c] ∧
      (∃ w ∈ c.versions, vkey w = vkey c5WRelA.version) ∧
      (∃ w ∈ c.versions, vkey w = vkey c5WRelB.version) ∧
      List.Pairwise (fun a b => vlt a b = true) c.versions := by
  exact consolidated_pr_dedup c5WComp .bug_fixes c5WRelA c5WRelB
    ⟨"fix flux".toList, some "Search".toList, some 555, some "u1".toList,
      none, none, none, none⟩
    ⟨"other words".toList, some "Other".toList, some 555, some "u2".toList,
      some 3, some "u3".toList, none, none⟩
    555 (by decide) (by decide) (by decide) (by decide) (by decide) rfl rfl (by decide)

/-- C10: every consolidated item returned by `get_consolidated_section` takes
all of its non-version fields from the first item (in release order, then
item order) carrying its deduplication key; items encountered later under the
same key contribute only their release's version — each entry of the version
list is the version attached to some occurrence of that key. -/
theorem consolidated_fields_from_first (cr : CompiledReleaseNotes) (t : SectionType)
    (c : ConsolidatedItem) (hc : c ∈ getConsolidatedSection cr t) :
    ∃ it v, firstWithKey t cr.releases (dedupKey it) = some (it, v) ∧
      c.description = it.description ∧ c.category = it.category ∧
      c.pr_number = it.pr_number ∧ c.pr_url = it.pr_url ∧
      c.issue_number = it.issue_number ∧ c.issue_url = it.issue_url ∧
      c.impact = it.impact ∧ c.action = it.action ∧
      (∀ w ∈ c.versions,
        ∃ p ∈ (occList t cr.releases).filter
            (fun q => decide (dedupKey q.1 = dedupKey it)), w = p.2) := by
  rw [getConsolidatedSection_eq] at hc
  rw [List.mem_insertionSort] at hc
  obtain ⟨p, hp, hpc⟩ := List.mem_map.mp hc
  obtain ⟨it, v, rest, hfeq, hpe, hke⟩ := consFold_entry_src _ p hp
  rw [← hke] at hfeq
  have hfields := buildEntry_fields it v (rest.map Prod.snd)
  obtain ⟨-, -, hprov⟩ := buildEntry_versions it v (rest.map Prod.snd)
  subst hpc
  rw [hpe]
  refine ⟨it, v, ?_, hfields.1, hfields.2.1, hfields.2.2.1, hfields.2.2.2.1,
    hfields.2.2.2.2.1, hfields.2.2.2.2.2.1, hfields.2.2.2.2.2.2.1,
    hfields.2.2.2.2.2.2.2, ?_⟩
  · unfold firstWithKey
    rw [hfeq]
    rfl
  · intro w hw
    rcases hprov w hw with rfl | hw'
    · exact ⟨(it, w), by rw [hfeq]; exact List.mem_cons_self _ _, rfl⟩
    · obtain ⟨q, hq, hq2⟩ := List.mem_map.mp hw'
      exact ⟨q, by rw [hfeq]; exact List.mem_cons_of_mem _ hq, hq2.symm⟩

/-- Witness for C10 at a concrete input: the consolidated record for
pull-request 555 takes description, category, URL and issue fields from the
8.17.0 item (the first occurrence) even though the 8.17.1 item carries
different metadata. -/
theorem consolidated_fields_from_first_witness :
    ∃ it v, firstWithKey .bug_fixes c5WComp.releases (dedupKey it) = some (it, v) ∧
      ("fix flux".toList : List Char) = it.description ∧
      (some "Search".toList : Option (List Char)) = it.category ∧
      (some 555 : Option Nat) = it.pr_number ∧
      (some "u1".toList : Option (List Char)) = it.pr_url ∧
      (none : Option Nat) = it.issue_number ∧
      (none : Option (List Char)) = it.issue_url ∧
      (none : Option (List Char)) = it.impact ∧
      (none : Option (List Char)) = it.action ∧
      (∀ w ∈ [(⟨8, 17, 0, none⟩ : Version), ⟨8, 17, 1, none⟩],
        ∃ p ∈ (occList .bug_fixes c5WComp.releases).filter
            (fun q => decide (dedupKey q.1 = dedupKey it)), w = p.2) := by
  exact consolidated_fields_from_first c5WComp .bug_fixes
    ⟨"fix flux".toList, [⟨8, 17, 0, none⟩, ⟨8, 17, 1, none⟩], some "Search".toList,
      some 555, some "u1".toList, none, none, none, none⟩ (by decide)

/-! ## C7: parse / format round trip -/

theorem natToCharsGo_fuel (f₁ : Nat) : ∀ (f₂ n : Nat) (acc : List Char), n < f₁ → n < f₂ →
    natToCharsGo f₁ n acc = natToCharsGo f₂ n acc := by
  induction f₁ with
  | zero => intro f₂ n acc h1 _; omega
  | succ f₁ ih =>
    intro f₂ n acc h1 h2
    cases f₂ with
    | zero => omega
    | succ f₂ =>
      simp only [natToCharsGo]
      by_cases h10 : n < 10
      · simp [h10]
      · have hdiv : n / 10 < n := Nat.div_lt_self (by omega) (by omega)
        simp only [h10, if_false]
        exact ih f₂ (n / 10) _ (by omega) (by omega)

theorem natToCharsGo_acc (n : Nat) : ∀ acc : List Char,
    natToCharsGo (n + 1) n acc = natToCharsGo (n + 1) n [] ++ acc := by
  induction n using Nat.strong_induction_on with
  | _ n ih =>
    intro acc
    by_cases h : n < 10
    · simp [natToCharsGo, h]
    · have hdiv : n / 10 < n := Nat.div_lt_self (by omega) (by omega)
      have hL : natToCharsGo (n + 1) n acc =
          natToCharsGo (n / 10 + 1) (n / 10) (Char.ofNat (48 + n % 10) :: acc) := by
        simp only [natToCharsGo, h, if_false]
        exact natToCharsGo_fuel n (n / 10 + 1) (n / 10) _
          (Nat.div_lt_self (by omega) (by omega)) (by omega)
      have hR : natToCharsGo (n + 1) n [] =
          natToCharsGo (n / 10 + 1) (n / 10) [Char.ofNat (48 + n % 10)] := by
        simp only [natToCharsGo, h, if_false]
        exact natToCharsGo_fuel n (n / 10 + 1) (n / 10) _
          (Nat.div_lt_self (by omega) (by omega)) (by omega)
      rw [hL, hR, ih (n / 10) hdiv (Char.ofNat (48 + n % 10) :: acc),
        ih (n / 10) hdiv [Char.ofNat (48 + n % 10)], List.append_assoc]
      rfl

theorem natToChars_step (n : Nat) (h : ¬ n < 10) :
    natToChars n = natToChars (n / 10) ++ [Char.ofNat (48 + n % 10)] := by
  unfold natToChars
  have h1 : natToCharsGo (n + 1) n [] =
      natToCharsGo (n / 10 + 1) (n / 10) [Char.ofNat (48 + n % 10)] := by
    simp only [natToCharsGo, h, if_false]
    exact natToCharsGo_fuel n (n / 10 + 1) (n / 10) _
      (Nat.div_lt_self (by omega) (by omega)) (by omega)
  rw [h1, natToCharsGo_acc]

theorem digitsToNat_append_one (l : List Char) (c : Char) :
    digitsToNat (l ++ [c]) = 10 * digitsToNat l + (c.toNat - 48) := by
  unfold digitsToNat
  rw [List.foldl_append]
  rfl

theorem digitChar_facts (n : Nat) (h : n < 10) :
    (Char.ofNat (48 + n)).isDigit = true ∧ (Char.ofNat (48 + n)).toNat - 48 = n ∧
      isSpacePy (Char.ofNat (48 + n)) = false := by
  interval_cases n <;> exact ⟨by decide, by decide, by decide⟩

theorem natToChars_spec (n : Nat) :
    (∀ c ∈ natToChars n, c.isDigit = true) ∧ natToChars n ≠ [] ∧
      digitsToNat (natToChars n) = n := by
  induction n using Nat.strong_induction_on with
  | _ n ih =>
    by_cases h : n < 10
    · have hn : natToChars n = [Char.ofNat (48 + n)] := by
        simp [natToChars, natToCharsGo, h]
      obtain ⟨hd, hv, -⟩ := digitChar_facts n h
      rw [hn]
      refine ⟨?_, by simp, ?_⟩
      · intro c hc
        rw [List.mem_singleton] at hc
        subst hc
        exact hd
      · show 10 * 0 + ((Char.ofNat (48 + n)).toNat - 48) = n
        rw [hv]
        omega
    · have hstep := natToChars_step n h
      have hm : n % 10 < 10 := Nat.mod_lt _ (by omega)
      obtain ⟨hd, hv, -⟩ := digitChar_facts (n % 10) hm
      obtain ⟨ih1, -, ih3⟩ := ih (n / 10) (Nat.div_lt_self (by omega) (by omega))
      rw [hstep]
      refine ⟨?_, by simp, ?_⟩
      · intro c hc
        rcases List.mem_append.mp hc with hc' | hc'
        · exact ih1 c hc'
        · rw [List.mem_singleton] at hc'
          subst hc'
          exact hd
      · rw [digitsToNat_append_one, ih3, hv]
        omega

theorem isSpacePy_of_isDigit (c : Char) (h : c.isDigit = true) : isSpacePy c = false := by
  cases hs : isSpacePy c with
  | false => rfl
  | true =>
    exfalso
    simp only [isSpacePy, Bool.or_eq_true, decide_eq_true_eq] at hs
    rcases hs with ((((rfl | rfl) | rfl) | rfl) | rfl) | rfl <;> exact absurd h (by decide)

theorem dropWhile_eq_self_of_all {p : Char → Bool} {l : List Char}
    (h : ∀ c ∈ l, p c = false) : l.dropWhile p = l := by
  cases l with
  | nil => rfl
  | cons c t =>
    rw [List.dropWhile_cons, h c (List.mem_cons_self c t)]
    simp

theorem pyStrip_eq_self {l : List Char} (h : ∀ c ∈ l, isSpacePy c = false) :
    pyStrip l = l := by
  unfold pyStrip
  rw [dropWhile_eq_self_of_all h,
    dropWhile_eq_self_of_all (fun c hc => h c (List.mem_reverse.mp hc)),
    List.reverse_reverse]

theorem takeWhile_append_not {p : Char → Bool} (a : List Char) {x : Char} (r : List Char)
    (ha : ∀ c ∈ a, p c = true) (hx : p x = false) :
    (a ++ x :: r).takeWhile p = a ∧ (a ++ x :: r).dropWhile p = x :: r := by
  induction a with
  | nil =>
    constructor
    · rw [List.nil_append, List.takeWhile_cons, hx]
      simp
    · rw [List.nil_append, List.dropWhile_cons, hx]
      simp
  | cons c a ih =>
    have hc : p c = true := ha c (List.mem_cons_self c a)
    obtain ⟨ih1, ih2⟩ := ih (fun d hd => ha d (List.mem_cons_of_mem c hd))
    constructor
    · rw [List.cons_append, List.takeWhile_cons, hc]
      simp [ih1]
    · rw [List.cons_append, List.dropWhile_cons, hc]
      simp [ih2]

theorem takeWhile_all {p : Char → Bool} (l : List Char) (h : ∀ c ∈ l, p c = true) :
    l.takeWhile p = l ∧ l.dropWhile p = [] :=
  ⟨List.takeWhile_eq_self_iff.mpr h, List.dropWhile_eq_nil_iff.mpr h⟩

theorem matchTagCIGo_shape :
    ∀ (tags : List (List Char)) (cs tag rest : List Char),
      matchTagCIGo tags cs = some (tag, rest) →
      tag ∈ tags ∧ (cs.take tag.length).map Char.toLower = tag ∧ rest = cs.drop tag.length := by
  intro tags
  induction tags with
  | nil => intro cs tag rest h; exact absurd h (by simp [matchTagCIGo])
  | cons t more ih =>
    intro cs tag rest h
    simp only [matchTagCIGo] at h
    by_cases hc : (cs.take t.length).map Char.toLower = t
    · rw [if_pos hc] at h
      injection h with h
      injection h with h1 h2
      subst h1
      subst h2
      exact ⟨List.mem_cons_self _ _, hc, rfl⟩
    · rw [if_neg hc] at h
      obtain ⟨hmem, hml, hr⟩ := ih cs tag rest h
      exact ⟨List.mem_cons_of_mem _ hmem, hml, hr⟩

theorem parsePreTail_shape (cs : List Char) (pre : Option (List Char))
    (h : parsePreTail cs = some pre) :
    pre = none ∨ ∃ tag ds, tag ∈ tagList ∧ ds ≠ [] ∧ (∀ c ∈ ds, c.isDigit = true) ∧
      pre = some (tag ++ ds) := by
  cases cs with
  | nil =>
    left
    simp only [parsePreTail] at h
    injection h with h
    exact h.symm
  | cons c rest =>
    simp only [parsePreTail] at h
    cases hm : matchTagCI (if decide (c = '-') || decide (c = '.') then rest else c :: rest) with
    | none => rw [hm] at h; exact absurd h (by simp)
    | some q =>
      obtain ⟨tag, after⟩ := q
      rw [hm] at h
      simp only at h
      by_cases hg : (after.takeWhile Char.isDigit).isEmpty = true ∨
          (after.dropWhile Char.isDigit).isEmpty = false
      · rw [if_pos (by
          rcases hg with hg | hg
          · simp [hg]
          · simp [hg])] at h
        exact absurd h (by simp)
      · push_neg at hg
        rw [if_neg (by
          intro hor
          rcases Bool.or_eq_true _ _ |>.mp hor with h1 | h1
          · exact absurd h1 hg.1
          · rw [Bool.not_eq_true'] at h1
            exact absurd h1 (by
              intro hx
              have := hg.2
              rw [hx] at this
              exact this rfl))] at h
        injection h with h
        right
        obtain ⟨htag, -, -⟩ := matchTagCIGo_shape tagList _ tag after hm
        refine ⟨tag, after.takeWhile Char.isDigit, htag, ?_, ?_, h.symm⟩
        · intro hnil
          have : (after.takeWhile Char.isDigit).isEmpty = true := by rw [hnil]; rfl
          exact absurd this hg.1
        · intro d hd
          exact List.mem_takeWhile_imp hd

theorem expectDot_dot (r : List Char) : expectDot ('.' :: r) = some r := rfl

theorem expectDot_inv (r1 r2 : List Char) (h : expectDot r1 = some r2) : r1 = '.' :: r2 := by
  cases r1 with
  | nil => exact absurd h (by simp [expectDot])
  | cons c t =>
    by_cases hc : c = '.'
    · subst hc
      rw [expectDot_dot] at h
      injection h with h
      rw [h]
    · rw [show expectDot (c :: t) = if c = '.' then some t else none from rfl,
        if_neg hc] at h
      exact absurd h (by simp)

theorem splitNum_append (a : List Char) (x : Char) (r : List Char)
    (ha1 : ∀ c ∈ a, c.isDigit = true) (ha2 : a ≠ []) (hx : Char.isDigit x = false) :
    splitNum (a ++ x :: r) = some (digitsToNat a, x :: r) := by
  obtain ⟨ht, hd⟩ := takeWhile_append_not a r ha1 hx
  unfold splitNum
  rw [ht, hd, if_neg]
  intro hc
  rw [List.isEmpty_iff] at hc
  exact ha2 hc

theorem splitNum_all (a : List Char) (ha1 : ∀ c ∈ a, c.isDigit = true) (ha2 : a ≠ []) :
    splitNum a = some (digitsToNat a, []) := by
  obtain ⟨ht, hd⟩ := takeWhile_all a ha1
  unfold splitNum
  rw [ht, hd, if_neg]
  intro hc
  rw [List.isEmpty_iff] at hc
  exact ha2 hc

theorem matchTagCI_canonical (tag ds : List Char) (htag : tag ∈ tagList) :
    matchTagCI (tag ++ ds) = some (tag, ds) := by
  simp only [tagList, List.mem_cons, List.mem_singleton, List.not_mem_nil, or_false] at htag
  rcases htag with rfl | rfl | rfl
  · have h1 : ((alphaChars ++ ds).take alphaChars.length).map Char.toLower = alphaChars := by
      rw [List.take_left]
      decide
    simp only [matchTagCI, tagList, matchTagCIGo]
    rw [if_pos h1, List.drop_left]
  · have h1 : ((betaChars ++ ds).take alphaChars.length).map Char.toLower ≠ alphaChars := by
      rw [List.take_append_eq_append_take]
      intro hcontra
      have hh := congrArg List.head? hcontra
      simp [betaChars, alphaChars] at hh
    have h2 : ((betaChars ++ ds).take betaChars.length).map Char.toLower = betaChars := by
      rw [List.take_left]
      decide
    simp only [matchTagCI, tagList, matchTagCIGo]
    rw [if_neg h1, if_pos h2, List.drop_left]
  · have h1 : ((rcChars ++ ds).take alphaChars.length).map Char.toLower ≠ alphaChars := by
      rw [List.take_append_eq_append_take]
      intro hcontra
      have hh := congrArg List.head? hcontra
      simp [rcChars, alphaChars] at hh
    have h2 : ((rcChars ++ ds).take betaChars.length).map Char.toLower ≠ betaChars := by
      rw [List.take_append_eq_append_take]
      intro hcontra
      have hh := congrArg List.head? hcontra
      simp [rcChars, betaChars] at hh
    have h3 : ((rcChars ++ ds).take rcChars.length).map Char.toLower = rcChars := by
      rw [List.take_left]
      decide
    simp only [matchTagCI, tagList, matchTagCIGo]
    rw [if_neg h1, if_neg h2, if_pos h3, List.drop_left]

theorem parsePreTail_canonical (tag ds : List Char) (htag : tag ∈ tagList) (hne : ds ≠ [])
    (hdig : ∀ c ∈ ds, c.isDigit = true) :
    parsePreTail ('-' :: (tag ++ ds)) = some (some (tag ++ ds)) := by
  obtain ⟨hta, htb⟩ := takeWhile_all ds hdig
  have hemp : ds.isEmpty = false := by
    cases ds with
    | nil => exact absurd rfl hne
    | cons x xs => rfl
  simp only [parsePreTail]
  have hc : (if (decide True || decide (('-' : Char) = '.')) = true
      then tag ++ ds else '-' :: (tag ++ ds)) = tag ++ ds := by simp
  rw [hc, matchTagCI_canonical tag ds htag]
  simp only [hta, htb, hemp, List.isEmpty_nil, Bool.not_true, Bool.or_false,
    Bool.false_eq_true, if_false]

theorem versionParseCore_render (v : Version)
    (hpre : v.prerelease = none ∨ ∃ tag ds, tag ∈ tagList ∧ ds ≠ [] ∧
      (∀ c ∈ ds, c.isDigit = true) ∧ v.prerelease = some (tag ++ ds)) :
    versionParseCore (renderVersion v) = some v := by
  obtain ⟨ma, mi, pa, pre⟩ := v
  obtain ⟨hA1, hA2, hA3⟩ := natToChars_spec ma
  obtain ⟨hB1, hB2, hB3⟩ := natToChars_spec mi
  obtain ⟨hC1, hC2, hC3⟩ := natToChars_spec pa
  have hdot : Char.isDigit '.' = false := by decide
  rcases hpre with hnone | ⟨tag, ds, htag, hne, hdig, hps⟩
  · simp only at hnone
    subst hnone
    have hrender : renderVersion ⟨ma, mi, pa, none⟩ =
        natToChars ma ++ '.' :: (natToChars mi ++ '.' :: natToChars pa) := by
      simp [renderVersion]
    rw [hrender]
    unfold versionParseCore
    rw [splitNum_append (natToChars ma) '.' (natToChars mi ++ '.' :: natToChars pa)
      hA1 hA2 hdot]
    simp only [Option.some_bind, expectDot_dot]
    rw [splitNum_append (natToChars mi) '.' (natToChars pa) hB1 hB2 hdot]
    simp only [Option.some_bind, expectDot_dot]
    rw [splitNum_all (natToChars pa) hC1 hC2]
    simp only [Option.some_bind, parsePreTail, Option.map_some', hA3, hB3, hC3]
  · simp only at hps
    subst hps
    have hrender : renderVersion ⟨ma, mi, pa, some (tag ++ ds)⟩ =
        natToChars ma ++ '.' :: (natToChars mi ++ '.' ::
          (natToChars pa ++ '-' :: (tag ++ ds))) := by
      simp [renderVersion]
    rw [hrender]
    unfold versionParseCore
    rw [splitNum_append (natToChars ma) '.'
      (natToChars mi ++ '.' :: (natToChars pa ++ '-' :: (tag ++ ds))) hA1 hA2 hdot]
    simp only [Option.some_bind, expectDot_dot]
    rw [splitNum_append (natToChars mi) '.' (natToChars pa ++ '-' :: (tag ++ ds))
      hB1 hB2 hdot]
    simp only [Option.some_bind, expectDot_dot]
    rw [splitNum_append (natToChars pa) '-' (tag ++ ds) hC1 hC2 (by decide)]
    simp only [Option.some_bind, parsePreTail_canonical tag ds htag hne hdig,
      Option.map_some', hA3, hB3, hC3]

theorem versionParse_shape (s : List Char) (v : Version) (h : versionParse s = some v) :
    v.prerelease = none ∨ ∃ tag ds, tag ∈ tagList ∧ ds ≠ [] ∧
      (∀ c ∈ ds, c.isDigit = true) ∧ v.prerelease = some (tag ++ ds) := by
  unfold versionParse versionParseCore at h
  simp only [Option.bind_eq_some, Option.map_eq_some'] at h
  obtain ⟨⟨ma, r1⟩, -, r2, -, ⟨mi, r3⟩, -, r4, -, ⟨pa, r5⟩, -, pre, hpre, hv⟩ := h
  subst hv
  simpa using parsePreTail_shape r5 pre hpre

theorem renderVersion_no_space (v : Version)
    (hpre : v.prerelease = none ∨ ∃ tag ds, tag ∈ tagList ∧ ds ≠ [] ∧
      (∀ c ∈ ds, c.isDigit = true) ∧ v.prerelease = some (tag ++ ds)) :
    ∀ c ∈ renderVersion v, isSpacePy c = false := by
  obtain ⟨ma, mi, pa, pre⟩ := v
  obtain ⟨hA1, -, -⟩ := natToChars_spec ma
  obtain ⟨hB1, -, -⟩ := natToChars_spec mi
  obtain ⟨hC1, -, -⟩ := natToChars_spec pa
  intro c hc
  unfold renderVersion at hc
  simp only [List.mem_append, List.mem_cons] at hc
  rcases hc with ((hc | rfl | hc) | rfl | hc) | hc'
  · exact isSpacePy_of_isDigit c (hA1 c hc)
  · decide
  · exact isSpacePy_of_isDigit c (hB1 c hc)
  · decide
  · exact isSpacePy_of_isDigit c (hC1 c hc)
  · rcases hpre with hnone | ⟨tag, ds, htag, -, hdig, hps⟩
    · simp only at hnone
      rw [hnone] at hc'
      exact absurd hc' (by simp)
    · simp only at hps
      rw [hps] at hc'
      simp only [List.mem_cons, List.mem_append] at hc'
      rcases hc' with rfl | htg | hds
      · decide
      · simp only [tagList, List.mem_cons, List.mem_singleton, List.not_mem_nil,
          or_false] at htag
        rcases htag with rfl | rfl | rfl
        · fin_cases htg <;> decide
        · fin_cases htg <;> decide
        · fin_cases htg <;> decide
      · exact isSpacePy_of_isDigit c (hdig c hds)

/-- C7: for every string accepted by `Version.parse`, formatting the parsed
version with `__str__` and re-parsing returns the same `Version` (so in
particular a `Version` equal under `__eq__` to the first parse): case of the
tag is normalised to lowercase and the separator to `-`. -/
theorem version_parse_round_trip (s : List Char) (v : Version)
    (h : versionParse s = some v) : versionParse (renderVersion v) = some v := by
  have hshape := versionParse_shape s v h
  unfold versionParse
  rw [pyStrip_eq_self (renderVersion_no_space v hshape)]
  exact versionParseCore_render v hshape

/-- Witness for C7 at a concrete input: parsing `"9.0.0.RC5"`, formatting and
re-parsing gives the same version (tag lowercased, separator normalised). -/
theorem version_parse_round_trip_witness :
    versionParse (renderVersion ⟨9, 0, 0, some ("rc5".toList)⟩) =
      some ⟨9, 0, 0, some ("rc5".toList)⟩ := by
  exact version_parse_round_trip "9.0.0.RC5".toList ⟨9, 0, 0, some ("rc5".toList)⟩ (by decide)

theorem toLower_of_digit (c : Char) (h : c.isDigit = true) : c.toLower = c := by
  simp only [Char.isDigit, Bool.and_eq_true, decide_eq_true_eq] at h
  unfold Char.toLower
  rw [if_neg]
  rintro ⟨h65, -⟩
  have h57 : c.val.toNat ≤ 57 := UInt32.toNat_le_of_le (by norm_num [UInt32.size]) h.2
  have h65' : (65 : Nat) ≤ c.val.toNat := h65
  omega

theorem tagWord_cons (t : List Char) (ht : IsTagWordCI t) :
    ∃ u t', t = u :: t' ∧ u.isDigit = false ∧ u ≠ '-' ∧ u ≠ '.' := by
  simp only [IsTagWordCI, tagList, List.mem_cons, List.mem_singleton, List.not_mem_nil,
    or_false] at ht
  cases t with
  | nil =>
    exfalso
    rw [List.map_nil] at ht
    rcases ht with ht | ht | ht <;> exact absurd ht (by decide)
  | cons u t' =>
    rw [List.map_cons] at ht
    have hu : u.toLower = 'a' ∨ u.toLower = 'b' ∨ u.toLower = 'r' := by
      rcases ht with ht | ht | ht
      · have ht' : u.toLower :: List.map Char.toLower t' =
          'a' :: ['l', 'p', 'h', 'a'] := ht
        injection ht' with h1 _
        exact Or.inl h1
      · have ht' : u.toLower :: List.map Char.toLower t' = 'b' :: ['e', 't', 'a'] := ht
        injection ht' with h1 _
        exact Or.inr (Or.inl h1)
      · have ht' : u.toLower :: List.map Char.toLower t' = 'r' :: ['c'] := ht
        injection ht' with h1 _
        exact Or.inr (Or.inr h1)
    refine ⟨u, t', rfl, ?_, ?_, ?_⟩
    · cases hd : u.isDigit with
      | false => rfl
      | true =>
        exfalso
        have hlo := toLower_of_digit u hd
        rcases hu with h | h | h <;> rw [hlo] at h <;> subst h <;> exact absurd hd (by decide)
    · rintro rfl
      rcases hu with h | h | h <;> exact absurd h (by decide)
    · rintro rfl
      rcases hu with h | h | h <;> exact absurd h (by decide)

theorem matchTagCI_mixed (tU ds tag : List Char) (htag : tag ∈ tagList)
    (hmap : tU.map Char.toLower = tag) :
    matchTagCI (tU ++ ds) = some (tag, ds) := by
  have hlen : tU.length = tag.length := by rw [← hmap, List.length_map]
  simp only [tagList, List.mem_cons, List.mem_singleton, List.not_mem_nil, or_false] at htag
  rcases htag with rfl | rfl | rfl
  · have h1 : ((tU ++ ds).take alphaChars.length).map Char.toLower = alphaChars := by
      rw [← hlen, List.take_left, hmap]
    simp only [matchTagCI, tagList, matchTagCIGo]
    rw [if_pos h1, ← hlen, List.drop_left]
  · have htk5 : tU.take alphaChars.length = tU :=
      List.take_of_length_le (by rw [hlen]; decide)
    have h1 : ((tU ++ ds).take alphaChars.length).map Char.toLower ≠ alphaChars := by
      rw [List.take_append_eq_append_take, htk5, List.map_append, hmap]
      intro hcontra
      have hh := congrArg List.head? hcontra
      simp [betaChars, alphaChars] at hh
    have h2 : ((tU ++ ds).take betaChars.length).map Char.toLower = betaChars := by
      rw [← hlen, List.take_left, hmap]
    simp only [matchTagCI, tagList, matchTagCIGo]
    rw [if_neg h1, if_pos h2, ← hlen, List.drop_left]
  · have htk5 : tU.take alphaChars.length = tU :=
      List.take_of_length_le (by rw [hlen]; decide)
    have htk4 : tU.take betaChars.length = tU :=
      List.take_of_length_le (by rw [hlen]; decide)
    have h1 : ((tU ++ ds).take alphaChars.length).map Char.toLower ≠ alphaChars := by
      rw [List.take_append_eq_append_take, htk5, List.map_append, hmap]
      intro hcontra
      have hh := congrArg List.head? hcontra
      simp [rcChars, alphaChars] at hh
    have h2 : ((tU ++ ds).take betaChars.length).map Char.toLower ≠ betaChars := by
      rw [List.take_append_eq_append_take, htk4, List.map_append, hmap]
      intro hcontra
      have hh := congrArg List.head? hcontra
      simp [rcChars, betaChars] at hh
    have h3 : ((tU ++ ds).take rcChars.length).map Char.toLower = rcChars := by
      rw [← hlen, List.take_left, hmap]
    simp only [matchTagCI, tagList, matchTagCIGo]
    rw [if_neg h1, if_neg h2, if_pos h3, ← hlen, List.drop_left]

theorem parsePreTail_step (c : Char) (rest : List Char) :
    parsePreTail (c :: rest) =
      match matchTagCI (if decide (c = '-') || decide (c = '.') then rest else c :: rest) with
      | some (tag, after) =>
        if (after.takeWhile Char.isDigit).isEmpty || !(after.dropWhile Char.isDigit).isEmpty
        then none else some (some (tag ++ after.takeWhile Char.isDigit))
      | none => none := rfl

theorem parsePreTail_mixed (sep tU n : List Char)
    (hsep : sep = [] ∨ sep = ['-'] ∨ sep = ['.'])
    (ht : IsTagWordCI tU) (hn : IsDigitRun n) :
    parsePreTail (sep ++ (tU ++ n)) = some (some (tU.map Char.toLower ++ n)) := by
  obtain ⟨hne, hdig⟩ := hn
  obtain ⟨hta, htb⟩ := takeWhile_all n hdig
  have hemp : n.isEmpty = false := by
    cases n with
    | nil => exact absurd rfl hne
    | cons x xs => rfl
  have hmt : matchTagCI (tU ++ n) = some (tU.map Char.toLower, n) :=
    matchTagCI_mixed tU n (tU.map Char.toLower) ht rfl
  rcases hsep with rfl | rfl | rfl
  · obtain ⟨u, t', htu, -, hu1, hu2⟩ := tagWord_cons tU ht
    have hcond : (decide (u = '-') || decide (u = '.')) = false := by
      simp [hu1, hu2]
    rw [List.nil_append, htu, List.cons_append, parsePreTail_step, hcond]
    simp only [Bool.false_eq_true, if_false]
    rw [← List.cons_append, ← htu, hmt]
    simp only [hta, htb, hemp, List.isEmpty_nil, Bool.not_true, Bool.or_false,
      Bool.false_eq_true, if_false]
  · rw [List.singleton_append, parsePreTail_step,
      if_pos (show (decide (('-' : Char) = '-') || decide (('-' : Char) = '.')) = true
        from by decide), hmt]
    simp only [hta, htb, hemp, List.isEmpty_nil, Bool.not_true, Bool.or_false,
      Bool.false_eq_true, if_false]
  · rw [List.singleton_append, parsePreTail_step,
      if_pos (show (decide (('.' : Char) = '-') || decide (('.' : Char) = '.')) = true
        from by decide), hmt]
    simp only [hta, htb, hemp, List.isEmpty_nil, Bool.not_true, Bool.or_false,
      Bool.false_eq_true, if_false]

theorem splitNum_inv (cs : List Char) (ma : Nat) (r : List Char)
    (h : splitNum cs = some (ma, r)) :
    ∃ a, cs = a ++ r ∧ IsDigitRun a ∧ ma = digitsToNat a := by
  unfold splitNum at h
  by_cases he : (cs.takeWhile Char.isDigit).isEmpty = true
  · rw [if_pos he] at h
    exact absurd h (by simp)
  · rw [if_neg he] at h
    rw [Option.some_inj, Prod.mk.injEq] at h
    obtain ⟨h1, h2⟩ := h
    refine ⟨cs.takeWhile Char.isDigit, ?_, ⟨?_, ?_⟩, h1.symm⟩
    · rw [← h2]
      exact (List.takeWhile_append_dropWhile (p := Char.isDigit) (l := cs)).symm
    · intro hnil
      rw [hnil] at he
      exact he rfl
    · intro c hc
      exact List.mem_takeWhile_imp hc

theorem parsePreTail_none_inv (cs : List Char) (h : parsePreTail cs = some none) :
    cs = [] := by
  cases cs with
  | nil => rfl
  | cons c rest =>
    exfalso
    rw [parsePreTail_step] at h
    rcases hm : matchTagCI (if decide (c = '-') || decide (c = '.') then rest else c :: rest)
      with _ | ⟨tag, after⟩
    · rw [hm] at h
      exact absurd h (by simp)
    · rw [hm] at h
      simp only at h
      by_cases hg : ((after.takeWhile Char.isDigit).isEmpty ||
          !(after.dropWhile Char.isDigit).isEmpty) = true
      · rw [if_pos hg] at h
        exact absurd h (by simp)
      · rw [if_neg hg] at h
        injection h with h
        exact absurd h (by simp)

theorem parsePreTail_some_inv (cs p : List Char)
    (h : parsePreTail cs = some (some p)) :
    ∃ sep tU n, (sep = [] ∨ sep = ['-'] ∨ sep = ['.']) ∧ IsTagWordCI tU ∧
      IsDigitRun n ∧ cs = sep ++ (tU ++ n) := by
  cases cs with
  | nil => exact absurd h (by simp [parsePreTail])
  | cons c rest =>
    rw [parsePreTail_step] at h
    rcases hm : matchTagCI (if decide (c = '-') || decide (c = '.') then rest else c :: rest)
      with _ | ⟨tag, after⟩
    · rw [hm] at h
      exact absurd h (by simp)
    · rw [hm] at h
      simp only at h
      by_cases hg : ((after.takeWhile Char.isDigit).isEmpty ||
          !(after.dropWhile Char.isDigit).isEmpty) = true
      · rw [if_pos hg] at h
        exact absurd h (by simp)
      · rw [if_neg hg] at h
        have hA : (after.takeWhile Char.isDigit).isEmpty = false := by
          cases hA' : (after.takeWhile Char.isDigit).isEmpty with
          | false => rfl
          | true => exact absurd (by rw [hA']; simp) hg
        have hdw : after.dropWhile Char.isDigit = [] := by
          cases hx : (after.dropWhile Char.isDigit).isEmpty with
          | true => exact List.isEmpty_iff.mp hx
          | false =>
            exact absurd (by rw [hx]; simp) hg
        have hdig : ∀ x ∈ after, Char.isDigit x = true := by
          intro x hx
          exact List.dropWhile_eq_nil_iff.mp hdw x hx
        have hane : after ≠ [] := by
          intro hnil
          rw [hnil] at hA
          simp at hA
        obtain ⟨htag, hml, hrest⟩ := matchTagCIGo_shape tagList _ tag after hm
        by_cases hcond : (decide (c = '-') || decide (c = '.')) = true
        · rw [if_pos hcond] at hml hrest
          refine ⟨[c], rest.take tag.length, after, ?_, ?_, ⟨hane, hdig⟩, ?_⟩
          · rcases (Bool.or_eq_true _ _).mp hcond with h' | h'
            · rw [decide_eq_true_eq] at h'
              rw [h']
              exact Or.inr (Or.inl rfl)
            · rw [decide_eq_true_eq] at h'
              rw [h']
              exact Or.inr (Or.inr rfl)
          · unfold IsTagWordCI
            rw [hml]
            exact htag
          · rw [List.singleton_append]
            congr 1
            rw [hrest]
            exact (List.take_append_drop tag.length rest).symm
        · rw [if_neg hcond] at hml hrest
          refine ⟨[], (c :: rest).take tag.length, after, Or.inl rfl, ?_, ⟨hane, hdig⟩, ?_⟩
          · unfold IsTagWordCI
            rw [hml]
            exact htag
          · rw [List.nil_append, hrest]
            exact (List.take_append_drop tag.length (c :: rest)).symm

theorem versionParseCore_isSome_iff (cs : List Char) :
    (versionParseCore cs).isSome = true ↔ SpecGrammar true cs := by
  constructor
  · intro h
    rw [Option.isSome_iff_exists] at h
    obtain ⟨v, hv⟩ := h
    unfold versionParseCore at hv
    simp only [Option.bind_eq_some, Option.map_eq_some'] at hv
    obtain ⟨⟨ma, r1⟩, h1, r2, h2, ⟨mi, r3⟩, h3, r4, h4, ⟨pa, r5⟩, h5, pre, hpre, -⟩ := hv
    obtain ⟨a, ha_eq, ha_run, -⟩ := splitNum_inv cs ma r1 h1
    have hr1 : r1 = '.' :: r2 := expectDot_inv r1 r2 h2
    obtain ⟨b, hb_eq, hb_run, -⟩ := splitNum_inv r2 mi r3 h3
    have hr3 : r3 = '.' :: r4 := expectDot_inv r3 r4 h4
    obtain ⟨c, hc_eq, hc_run, -⟩ := splitNum_inv r4 pa r5 h5
    refine ⟨a, b, c, r5, ?_, ha_run, hb_run, hc_run, ?_⟩
    · rw [ha_eq, hr1, hb_eq, hr3, hc_eq]
    · cases pre with
      | none => exact Or.inl (parsePreTail_none_inv r5 hpre)
      | some p =>
        obtain ⟨sep, tU, n, hsep, htw, hnrun, hr5⟩ := parsePreTail_some_inv r5 p hpre
        refine Or.inr ⟨sep, tU, n, ?_, htw, hnrun, hr5⟩
        rcases hsep with rfl | rfl | rfl <;> simp [sepChoices]
  · rintro ⟨a, b, c, rest, heq, ha, hb, hc, hrest⟩
    subst heq
    unfold versionParseCore
    rw [splitNum_append a '.' (b ++ '.' :: (c ++ rest)) ha.2 ha.1 (by decide)]
    simp only [Option.some_bind, expectDot_dot]
    rw [splitNum_append b '.' (c ++ rest) hb.2 hb.1 (by decide)]
    simp only [Option.some_bind, expectDot_dot]
    rcases hrest with rfl | ⟨sep, t, n, hsep, htw, hnrun, rfl⟩
    · rw [List.append_nil, splitNum_all c hc.2 hc.1]
      rfl
    · have hsep3 : sep = [] ∨ sep = ['-'] ∨ sep = ['.'] := by
        simpa [sepChoices] using hsep
      have hpp := parsePreTail_mixed sep t n hsep3 htw hnrun
      rcases hsep3 with rfl | rfl | rfl
      · obtain ⟨u, t', htu, hud, -, -⟩ := tagWord_cons t htw
        rw [List.nil_append] at hpp ⊢
        rw [htu, List.cons_append,
          splitNum_append c u (t' ++ n) hc.2 hc.1 hud]
        simp only [Option.some_bind]
        rw [← List.cons_append, ← htu, hpp]
        rfl
      · rw [List.singleton_append] at hpp ⊢
        rw [splitNum_append c '-' (t ++ n) hc.2 hc.1 (by decide)]
        simp only [Option.some_bind]
        rw [hpp]
        rfl
      · rw [List.singleton_append] at hpp ⊢
        rw [splitNum_append c '.' (t ++ n) hc.2 hc.1 (by decide)]
        simp only [Option.some_bind]
        rw [hpp]
        rfl

theorem grammar_force (cs a r : List Char) (x : Char) (heq : cs = a ++ x :: r)
    (ha : IsDigitRun a) (hx : Char.isDigit x = false) :
    a = cs.takeWhile Char.isDigit ∧ x :: r = cs.dropWhile Char.isDigit := by
  subst heq
  obtain ⟨h1, h2⟩ := takeWhile_append_not a r ha.2 hx
  exact ⟨h1.symm, h2.symm⟩

/-- C3 counterexample: the string `1.2.3alpha1` is outside the literal grammar
`major.minor.patch[-(alpha|beta|rc)N]` with a mandatory `-` or `.` separator,
yet `Version.parse` accepts it, because the regex makes the separator optional
(`[-.]?`). -/
theorem version_grammar_counterexample :
    (versionParse cexChars).isSome = true ∧ ¬ SpecGrammar false cexChars := by
  refine ⟨by decide, ?_⟩
  rintro ⟨a, b, c, rest, heq, ha, hb, hc, hrest⟩
  obtain ⟨-, hr1⟩ := grammar_force cexChars a (b ++ '.' :: (c ++ rest)) '.' heq ha (by decide)
  have htd : cexChars.dropWhile Char.isDigit =
      '.' :: ['2', '.', '3', 'a', 'l', 'p', 'h', 'a', '1'] := by decide
  rw [htd] at hr1
  injection hr1 with hd1 hr1'
  obtain ⟨-, hr2⟩ := grammar_force (['2', '.', '3', 'a', 'l', 'p', 'h', 'a', '1'])
    b (c ++ rest) '.' hr1'.symm hb (by decide)
  have htd2 : (['2', '.', '3', 'a', 'l', 'p', 'h', 'a', '1'] : List Char).dropWhile
      Char.isDigit = '.' :: ['3', 'a', 'l', 'p', 'h', 'a', '1'] := by decide
  rw [htd2] at hr2
  injection hr2 with hd2 hr2'
  rcases hrest with rfl | ⟨sep, t, n, hsep, htw, hnrun, rfl⟩
  · rw [List.append_nil] at hr2'
    have hmem : 'a' ∈ c := by rw [hr2']; decide
    exact absurd (hc.2 'a' hmem) (by decide)
  · have hsep2 : sep = ['-'] ∨ sep = ['.'] := by simpa [sepChoices] using hsep
    rcases hsep2 with rfl | rfl
    · rw [List.singleton_append] at hr2'
      obtain ⟨-, hdr⟩ := grammar_force (['3', 'a', 'l', 'p', 'h', 'a', '1'])
        c (t ++ n) '-' hr2'.symm hc (by decide)
      have htd3 : (['3', 'a', 'l', 'p', 'h', 'a', '1'] : List Char).dropWhile
          Char.isDigit = 'a' :: ['l', 'p', 'h', 'a', '1'] := by decide
      rw [htd3] at hdr
      injection hdr with hdr' htl
      exact absurd hdr' (by decide)
    · rw [List.singleton_append] at hr2'
      obtain ⟨-, hdr⟩ := grammar_force (['3', 'a', 'l', 'p', 'h', 'a', '1'])
        c (t ++ n) '.' hr2'.symm hc (by decide)
      have htd3 : (['3', 'a', 'l', 'p', 'h', 'a', '1'] : List Char).dropWhile
          Char.isDigit = 'a' :: ['l', 'p', 'h', 'a', '1'] := by decide
      rw [htd3] at hdr
      injection hdr with hdr' htl
      exact absurd hdr' (by decide)

/-- C3 (amended): `Version.parse` succeeds exactly on the strings whose
stripped form lies in the grammar `major.minor.patch[(-|.)?(alpha|beta|rc)N]`,
with the tag matched case-insensitively and the separator before the tag `-`,
`.`, or absent; leading and trailing whitespace is stripped before matching. -/
theorem version_parse_grammar (s : List Char) :
    (versionParse s).isSome = true ↔ SpecGrammar true (pyStrip s) :=
  versionParseCore_isSome_iff (pyStrip s)
